import Mathlib

/-!
# Verification of the THOTH Column Classification & Batch Translation Orchestrator

A shallow embedding of the translation orchestration core of the repository
(`src/translator/processor.py`, class `CSVProcessor`), together with theorems
settling the specification claims about it.

Modelling conventions:

* The external translation capability (`engine.translate_batch`) is a parameter
  of type `List String → List String → String → List TranslationResult`
  (texts, aligned per-unit source codes, one target code ↦ aligned outcome
  list).  The Python wrapper object `BatchTranslationResult` only carries the
  `.results` list used by the orchestrator, so the function returns that list
  directly.
* The language-code registry (`LanguageMapper.to_argos`, module
  `translator/languages.py`) is a parameter `toArgos : String → Option String`;
  `none` models the registry reporting no mapping (Python `None`).
* The cooperative cancellation flag of the `ProgressTracker`
  (`translator/progress.py`) is modelled as a Boolean observation sequence
  `cancelled : Nat → Bool` indexed by the number of `is_cancelled()` reads
  performed so far in the run; per the spec (§4.5) `cancel()` only ever sets
  the flag, so a real run yields a monotone sequence, which theorems assume
  where needed.
* Pandas cell values reach the loop already coerced through `astype(str)`, so
  a column is a `List String`; a null cell appears as the literal `"nan"`.
* Python truthiness on strings (`x or y`, `if s:`) is the emptiness test,
  embedded by `pyOrS` / explicit `≠ ""` comparisons.
* Wall-clock bookkeeping (`time.time()`, the `processing_time` field) and log
  output are not modelled; neither is the pre-run `self._df is None` guard,
  since the claims all concern runs over a loaded table.
-/

/-- One per-unit outcome returned by the translation capability
(`TranslationResult` in `translator/engine_base.py`, as consumed by the
orchestrator: a success flag, the translated text, and an error description;
the empty string stands for an absent text/error, matching Python truthiness
at the use sites). -/
structure TranslationResult where
  success : Bool
  translated_text : String
  error : String
deriving DecidableEq, Repr

/-- The external translation capability: aligned texts, aligned per-unit
source codes, one target code, returning an aligned outcome list. -/
abbrev Engine := List String → List String → String → List TranslationResult

/-- `ColumnInfo` from `translator/processor.py` (lines 25-62).  The float
`confidence` field is omitted (floating point is outside the embedding) as are
no claims about it. -/
structure ColumnInfo where
  name : String
  index : Nat
  detected_language : String
  argos_code : String
  language_name : String
  column_type : String
  selected : Bool
  sample_values : List String
  override_language : Option String
deriving DecidableEq, Repr

/-- Python `a or b` on strings: `a` when non-empty, else `b`. -/
def pyOrS (a b : String) : String := if a = "" then b else a

/-- Python `a or b` where `a : Optional[str]`: falls through on `None` and on
the empty string. -/
def pyOrOS (a : Option String) (b : String) : String :=
  match a with
  | some s => pyOrS s b
  | none => b

/-- `ColumnInfo.effective_language` (processor.py lines 59-62):
`self.override_language or self.detected_language` — Python `or`, so both a
`None` override and an empty-string override fall through to the detected
language. -/
def ColumnInfo.effective_language (c : ColumnInfo) : String :=
  match c.override_language with
  | some s => if s = "" then c.detected_language else s
  | none => c.detected_language

/-- The ASCII whitespace characters stripped by Python `str.strip()`
(space, tab, newline, carriage return, vertical tab, form feed; the embedding
works over this ASCII set). -/
def pyIsSpace (c : Char) : Bool :=
  c = Char.ofNat 32 || c = Char.ofNat 9 || c = Char.ofNat 10 || c = Char.ofNat 13 ||
  c = Char.ofNat 11 || c = Char.ofNat 12

/-- Python `s.strip()`: remove leading and trailing whitespace. -/
def pyStrip (s : String) : String :=
  String.mk (((s.data.dropWhile pyIsSpace).reverse.dropWhile pyIsSpace).reverse)

/-- Python `s[:n]` on strings. -/
def pyTake (s : String) (n : Nat) : String :=
  String.mk (s.data.take n)

/-- Python `s.lower()` (over the ASCII range relevant to language codes). -/
def pyLower (s : String) : String :=
  String.mk (s.data.map Char.toLower)

/-- The underscore character. -/
def usChar : Char := Char.ofNat 95

/-- Python `"_" in s`. -/
def hasUnderscore (s : String) : Bool :=
  s.data.contains usChar

/-- Python `s.split("_")[0]`: the part of `s` before the first underscore
(all of `s` when there is none — the source only ever reads entry `[0]` of
the split). -/
def beforeUnderscore (s : String) : String :=
  String.mk (s.data.takeWhile (fun c => c ≠ usChar))

/-- The cell filter used throughout `translate` (processor.py lines 409-410,
453): `value and str(value).strip() and value != "nan"`.  A cell is sent for
translation iff it is non-empty, not whitespace-only and not the textual null
marker `"nan"`. -/
def isTranslatable (v : String) : Bool :=
  v ≠ "" && pyStrip v ≠ "" && v ≠ "nan"

/-- A single quote character (used inside warning strings). -/
def squote : String := String.singleton (Char.ofNat 39)

/-- The warning recorded for a failed unit (processor.py lines 487-490):
`f"Row {orig_idx + 1}, column '{col.name}': {trans_result.error}"`. -/
def mkWarning (origIdx : Nat) (colName : String) (err : String) : String :=
  "Row " ++ toString (origIdx + 1) ++ ", column " ++ squote ++ colName ++ squote ++ ": " ++ err

/-- The sparse unit list for a column (processor.py lines 452-456): the
enumerated values that pass the cell filter, pairing each kept text with its
original row index.  The three aligned Python lists `texts_to_translate`,
`indices_to_translate`, `source_langs` are modelled as this single aligned
pair list (the source code keeps them index-aligned and only ever slices them
in parallel). -/
def columnUnits (values : List String) : List (Nat × String) :=
  values.enum.filter (fun p => isTranslatable p.2)

/-- Argos source-code resolution (processor.py lines 439-442):
`col.argos_code or self._language_mapper.to_argos(source_lang) or
source_lang[:2]` with `source_lang = col.effective_language`. -/
def argosSourceLang (toArgos : String → Option String) (c : ColumnInfo) : String :=
  pyOrS c.argos_code (pyOrOS (toArgos c.effective_language) (pyTake c.effective_language 2))

/-- The per-unit source code a column's units are sent with
(processor.py lines 436-442): the effective language, converted through the
Argos chain when the engine is Argos. -/
def columnSourceLang (isArgos : Bool) (toArgos : String → Option String)
    (c : ColumnInfo) : String :=
  if isArgos then argosSourceLang toArgos c else c.effective_language

/-- Target-code conversion (processor.py lines 421-425):
`to_argos(target_language) or "en"` for Argos, identity otherwise. -/
def engineTargetLang (isArgos : Bool) (toArgos : String → Option String)
    (target : String) : String :=
  if isArgos then pyOrOS (toArgos target) "en" else target

/-- The Python batch slicing `texts[batch_start:batch_start+batch_size]` for
`batch_start in range(0, len(texts), batch_size)`, fuel-driven so that it
reduces by `rfl`/`decide` (the fuel `xs.length` is enough whenever `0 < b`;
`b = 0` cannot occur: the configuration validates `batch_size > 0` at load,
cf. the assertion `config.performance.batch_size > 0` in `cli.py`). -/
def batchSlicesAux : Nat → Nat → List α → List (List α)
  | 0, _, _ => []
  | _, _, [] => []
  | fuel + 1, b, x :: xs => (x :: xs).take b :: batchSlicesAux fuel b ((x :: xs).drop b)

/-- Consecutive fixed-size slices of a list, mirroring the source's
`range(0, n, batch_size)` slicing loop. -/
def batchSlices (b : Nat) (xs : List α) : List (List α) :=
  batchSlicesAux xs.length b xs

/-- Events observable during one `translate` run, in program order: a read of
the cancellation flag (with the value observed), one batch invocation of the
external engine (with the aligned texts and source codes passed), and the
commit of a finished column's dense output array (processor.py line 499). -/
inductive Event where
  | check (result : Bool)
  | call (texts : List String) (langs : List String)
  | commit (colName : String)
deriving DecidableEq, Repr

/-- Mutable state threaded through one `translate` run: the committed columns
(`self._translated_columns`), the `cells_translated` counter, the accumulated
`warnings` list, the number of cancellation-flag reads performed so far, and
the event trace. -/
structure RunState where
  translated_columns : List (String × List String)
  cells_translated : Nat
  warnings : List String
  checkIdx : Nat
  trace : List Event
deriving Repr

/-- State local to one column's batch loop. -/
structure ColState where
  translated : List String
  cells : Nat
  warnings : List String
  checkIdx : Nat
  trace : List Event
deriving Repr

/-- A unit outcome counts as a translation (processor.py line 481):
`trans_result.success and trans_result.translated_text`. -/
def unitOk (r : TranslationResult) : Bool :=
  r.success && r.translated_text ≠ ""

/-- The per-outcome write-back loop (processor.py lines 479-490): on
`trans_result.success and trans_result.translated_text` store the translation
at the unit's original row index and count the cell; otherwise store the
original source text and, when an error description is present, append a
warning naming row and column. -/
def applyOutcomes (colName : String) :
    List ((Nat × String) × TranslationResult) → List String → Nat → List String →
    List String × Nat × List String
  | [], tv, cells, ws => (tv, cells, ws)
  | (u, r) :: rest, tv, cells, ws =>
    if unitOk r then
      applyOutcomes colName rest (tv.set u.1 r.translated_text) (cells + 1) ws
    else
      applyOutcomes colName rest (tv.set u.1 u.2) cells
        (if r.error ≠ "" then ws ++ [mkWarning u.1 colName r.error] else ws)

/-- The inner batch loop of `translate` (processor.py lines 462-496): before
each batch the cancellation flag is read and, when set, the loop breaks; else
the engine is invoked once for the batch and the outcomes are written back.
`enumerate(result.results)` pairs outcomes with units positionally, embedded
as `chunk.zip results` (identical when the engine honours its alignment
contract; a short result list is likewise processed only as far as it goes,
while on an over-long result list the Python raises where `zip` truncates —
theorems about outcome write-back therefore take the `Aligned` contract). -/
def runBatches (engine : Engine) (cancelled : Nat → Bool)
    (target_lang source_lang colName : String) :
    List (List (Nat × String)) → ColState → ColState
  | [], st => st
  | chunk :: rest, st =>
    if cancelled st.checkIdx then
      { st with checkIdx := st.checkIdx + 1, trace := st.trace ++ [Event.check true] }
    else
      let texts := chunk.map Prod.snd
      let langs := List.replicate texts.length source_lang
      let results := engine texts langs target_lang
      let out := applyOutcomes colName (chunk.zip results) st.translated st.cells st.warnings
      runBatches engine cancelled target_lang source_lang colName rest
        { translated := out.1, cells := out.2.1, warnings := out.2.2,
          checkIdx := st.checkIdx + 1,
          trace := st.trace ++ [Event.check false, Event.call texts langs] }

/-- Processing of one selected column (processor.py lines 433-499): resolve
the source code, build the sparse unit list, run the batch loop over a dense
output array initialised to empty strings, then commit the array keyed by the
column name (this happens even when the batch loop was broken by
cancellation — the partially filled array is stored). -/
def processColumn (engine : Engine) (cancelled : Nat → Bool) (isArgos : Bool)
    (toArgos : String → Option String) (batch_size : Nat) (target_lang : String)
    (col : ColumnInfo) (values : List String) (st : RunState) : RunState :=
  let source_lang := columnSourceLang isArgos toArgos col
  let units := columnUnits values
  let cst := runBatches engine cancelled target_lang source_lang col.name
    (batchSlices batch_size units)
    { translated := List.replicate values.length "", cells := st.cells_translated,
      warnings := st.warnings, checkIdx := st.checkIdx, trace := st.trace }
  { translated_columns := st.translated_columns ++ [(col.name, cst.translated)],
    cells_translated := cst.cells, warnings := cst.warnings,
    checkIdx := cst.checkIdx, trace := cst.trace ++ [Event.commit col.name] }

/-- The outer column loop of `translate` (processor.py lines 429-499): before
each column the cancellation flag is read and, when set, the loop breaks. -/
def runColumns (engine : Engine) (cancelled : Nat → Bool) (isArgos : Bool)
    (toArgos : String → Option String) (batch_size : Nat) (target_lang : String) :
    List (ColumnInfo × List String) → RunState → RunState
  | [], st => st
  | (col, values) :: rest, st =>
    if cancelled st.checkIdx then
      { st with checkIdx := st.checkIdx + 1, trace := st.trace ++ [Event.check true] }
    else
      runColumns engine cancelled isArgos toArgos batch_size target_lang rest
        (processColumn engine cancelled isArgos toArgos batch_size target_lang col values
          { st with checkIdx := st.checkIdx + 1, trace := st.trace ++ [Event.check false] })

/-- `ProcessingResult` from `translator/processor.py` (lines 65-91), minus the
wall-clock `processing_time` field (real time is outside the embedding). -/
structure ProcessingResult where
  success : Bool
  output_path : Option String
  rows_processed : Nat
  columns_translated : Nat
  cells_translated : Nat
  error : Option String
  warnings : List String
deriving DecidableEq, Repr

/-- The total-cell count handed to `progress.start` (processor.py
lines 407-412): per selected column, the number of values passing the cell
filter. -/
def totalCells (selected : List (ColumnInfo × List String)) : Nat :=
  (selected.map (fun cv => (cv.2.filter (fun v => isTranslatable v)).length)).sum

/-- Everything observable from one `translate` call: the returned
`ProcessingResult`, the final orchestrator state (including the committed
columns in `self._translated_columns` and the event trace), and the
total-cell count reported to the progress tracker. -/
structure TranslateOutput where
  result : ProcessingResult
  state : RunState
  total_cells : Nat

/-- `CSVProcessor.translate` (processor.py lines 363-519).  `selected` is the
list of selected columns paired with their string-coerced values
(`self._df[col.name].astype(str).tolist()`); `nRows` is `len(self._df)`;
`initial_translated` is the prior contents of `self._translated_columns`.
The final `success` flag re-reads the cancellation flag after the loop
(line 512); the message-only read at line 504 is not modelled separately.
Warnings are truncated to the first 10 at result construction (line 518). -/
def CSVProcessor.translate (engine : Engine) (cancelled : Nat → Bool)
    (isArgos : Bool) (toArgos : String → Option String) (batch_size : Nat)
    (target_language : String) (nRows : Nat)
    (selected : List (ColumnInfo × List String))
    (initial_translated : List (String × List String)) : TranslateOutput :=
  if selected.isEmpty then
    { result := { success := false, output_path := none, rows_processed := 0,
                  columns_translated := 0, cells_translated := 0,
                  error := some "No columns selected for translation", warnings := [] },
      state := { translated_columns := initial_translated, cells_translated := 0,
                 warnings := [], checkIdx := 0, trace := [] },
      total_cells := 0 }
  else
    let target_lang := engineTargetLang isArgos toArgos target_language
    let st := runColumns engine cancelled isArgos toArgos batch_size target_lang selected
      { translated_columns := initial_translated, cells_translated := 0, warnings := [],
        checkIdx := 0, trace := [] }
    { result := { success := !cancelled st.checkIdx, output_path := none,
                  rows_processed := nRows, columns_translated := selected.length,
                  cells_translated := st.cells_translated, error := none,
                  warnings := st.warnings.take 10 },
      state := st,
      total_cells := totalCells selected }

/-- The derived-column language suffix computed in `CSVProcessor.save`
(processor.py lines 576-581): default `target[:3].lower()`, overridden to
`"en"` for the literal `"eng_Latn"`, else to `target.split("_")[0][:2]` when
the target contains an underscore. -/
def langSuffix (target : String) : String :=
  let dflt := pyLower (pyTake target 3)
  if target = "eng_Latn" then "en"
  else if hasUnderscore target then pyTake (beforeUnderscore target) 2
  else dflt

/-- The derived output column name (processor.py line 582):
`f"{col_name}_{lang_suffix}"`. -/
def newColName (colName target : String) : String :=
  colName ++ "_" ++ langSuffix target

/-! ### Declarative companions used in theorem statements

The loop in `translate` is characterised below against these closed-form
descriptions of what one column's processing produces.  They are derived
views of the same embedded source code, proved equal to the loop by the
lemmas that follow. -/

/-- The value written back at a unit's row index (processor.py
lines 481-486): the translated text on a counted success, else the original
source text. -/
def writeVal (p : (Nat × String) × TranslationResult) : String :=
  if unitOk p.2 then p.2.translated_text else p.1.2

/-- Dense write-back of a list of (unit, outcome) pairs. -/
def writeBack : List ((Nat × String) × TranslationResult) → List String → List String
  | [], tv => tv
  | p :: rest, tv => writeBack rest (tv.set p.1.1 (writeVal p))

/-- The warning a (unit, outcome) pair contributes (processor.py
lines 487-490): only uncounted outcomes that carry an error description
produce one. -/
def warnOf (colName : String) (p : (Nat × String) × TranslationResult) : Option String :=
  if unitOk p.2 then none
  else if p.2.error ≠ "" then some (mkWarning p.1.1 colName p.2.error) else none

/-- All (unit, outcome) pairs a column's batch loop processes when it runs to
completion: each batch slice zipped with the engine's outcome list for it. -/
def columnPairs (engine : Engine) (target_lang source_lang : String) (b : Nat)
    (values : List String) : List ((Nat × String) × TranslationResult) :=
  ((batchSlices b (columnUnits values)).map
    (fun ch => ch.zip
      (engine (ch.map Prod.snd) (List.replicate (ch.map Prod.snd).length source_lang)
        target_lang))).flatten

/-- The aligned outcome list for a column: the engine's per-batch outcome
lists, concatenated in batch order. -/
def columnOutcomes (engine : Engine) (target_lang source_lang : String) (b : Nat)
    (values : List String) : List TranslationResult :=
  ((batchSlices b (columnUnits values)).map
    (fun ch => engine (ch.map Prod.snd) (List.replicate (ch.map Prod.snd).length source_lang)
      target_lang)).flatten

/-- The dense output array a completed column commits: empty strings
everywhere, overwritten at each unit's original row index. -/
def columnOutput (engine : Engine) (target_lang source_lang : String) (b : Nat)
    (values : List String) : List String :=
  writeBack (columnPairs engine target_lang source_lang b values)
    (List.replicate values.length "")

/-- The number of cells a completed column adds to `cells_translated`. -/
def colCells (engine : Engine) (target_lang source_lang : String) (b : Nat)
    (values : List String) : Nat :=
  (columnPairs engine target_lang source_lang b values).countP (fun p => unitOk p.2)

/-- The warnings a completed column appends, in unit order. -/
def colWarnings (engine : Engine) (target_lang source_lang : String) (b : Nat)
    (values : List String) (colName : String) : List String :=
  (columnPairs engine target_lang source_lang b values).filterMap (warnOf colName)

/-- The engine contract from spec §6: the outcome list is aligned with the
input texts (same length, same order). -/
def Aligned (engine : Engine) : Prop :=
  ∀ texts langs target, (engine texts langs target).length = texts.length

/-! ### Lemmas about `batchSlices` -/

/-- The (unit, outcome) pairs produced by a list of batch slices. -/
def chunkPairs (engine : Engine) (target_lang source_lang : String)
    (chunks : List (List (Nat × String))) : List ((Nat × String) × TranslationResult) :=
  (chunks.map
    (fun ch => ch.zip
      (engine (ch.map Prod.snd) (List.replicate (ch.map Prod.snd).length source_lang)
        target_lang))).flatten

/-- The event-trace segment contributed by a batch loop that runs to
completion: per batch, one observed-clear cancellation check immediately
followed by one engine invocation. -/
def colTrace (source_lang : String) (chunks : List (List (Nat × String))) : List Event :=
  (chunks.map
    (fun ch => [Event.check false,
      Event.call (ch.map Prod.snd) (List.replicate (ch.map Prod.snd).length source_lang)])).flatten

/-- The committed (name, dense output) pairs of a run with no cancellation,
in column order. -/
def runOutputs (engine : Engine) (isArgos : Bool) (toArgos : String → Option String)
    (b : Nat) (tl : String) (selected : List (ColumnInfo × List String)) :
    List (String × List String) :=
  selected.map (fun cv =>
    (cv.1.name, columnOutput engine tl (columnSourceLang isArgos toArgos cv.1) b cv.2))

/-- The value of `cells_translated` after a run with no cancellation. -/
def runCells (engine : Engine) (isArgos : Bool) (toArgos : String → Option String)
    (b : Nat) (tl : String) (selected : List (ColumnInfo × List String)) : Nat :=
  (selected.map (fun cv =>
    colCells engine tl (columnSourceLang isArgos toArgos cv.1) b cv.2)).sum

/-- The accumulated warnings of a run with no cancellation, in order of
occurrence. -/
def runWarningsList (engine : Engine) (isArgos : Bool) (toArgos : String → Option String)
    (b : Nat) (tl : String) (selected : List (ColumnInfo × List String)) : List String :=
  (selected.map (fun cv =>
    colWarnings engine tl (columnSourceLang isArgos toArgos cv.1) b cv.2 cv.1.name)).flatten

/-- The event trace of a run with no cancellation. -/
def runTrace (isArgos : Bool) (toArgos : String → Option String)
    (b : Nat) (selected : List (ColumnInfo × List String)) : List Event :=
  (selected.map (fun cv =>
    Event.check false ::
      (colTrace (columnSourceLang isArgos toArgos cv.1) (batchSlices b (columnUnits cv.2)) ++
        [Event.commit cv.1.name]))).flatten

/-- The number of cancellation-flag reads of a run with no cancellation. -/
def runChecks (b : Nat) (selected : List (ColumnInfo × List String)) : Nat :=
  (selected.map (fun cv => 1 + (batchSlices b (columnUnits cv.2)).length)).sum

/-- `cancel()` only ever sets the ProgressTracker flag (spec §4.5), so the
sequence of values successive `is_cancelled()` reads observe is monotone. -/
def CancelMonotone (cancelled : Nat → Bool) : Prop :=
  ∀ i j, i ≤ j → cancelled i = true → cancelled j = true

/-- `true` on every event except an engine invocation. -/
def notCall : Event → Bool
  | Event.call _ _ => false
  | _ => true

/-- Whether a trace contains a cancellation check that observed the flag set. -/
def hasTrueCheck : List Event → Bool
  | [] => false
  | Event.check true :: _ => true
  | _ :: r => hasTrueCheck r

/-- No engine invocation occurs after the first check that observed the flag
set. -/
def noCallAfterTrueCheck : List Event → Bool
  | [] => true
  | Event.check true :: r => r.all notCall
  | _ :: r => noCallAfterTrueCheck r

/-- `true` when `prev` is a cancellation check that observed the flag clear. -/
def prevOk : Event → Bool
  | Event.check false => true
  | _ => false

/-- Every engine invocation in the list is immediately preceded by a check
that observed the flag clear (`prev` is the event just before the list). -/
def callsPrecededAux (prev : Event) : List Event → Bool
  | [] => true
  | e :: r => (if notCall e then true else prevOk prev) && callsPrecededAux e r

/-- Every engine invocation in the trace is immediately preceded by a
cancellation check that observed the flag clear. -/
def callsPreceded : List Event → Bool
  | [] => true
  | e :: r => notCall e && callsPrecededAux e r

/-- Invariant relating a state's trace and check counter to the cancellation
flag: no engine call after an observed-set check, every call immediately
preceded by an observed-clear check, and once a check observed the flag set,
the next read still observes it (by monotonicity). -/
def SafeState (cancelled : Nat → Bool) (trace : List Event) (checkIdx : Nat) : Prop :=
  noCallAfterTrueCheck trace = true ∧ callsPreceded trace = true ∧
  (hasTrueCheck trace = true → cancelled checkIdx = true)

/-- The initial run state of one `translate` call. -/
def initState (init : List (String × List String)) : RunState :=
  { translated_columns := init, cells_translated := 0, warnings := [],
    checkIdx := 0, trace := [] }

/-- The text batches of the engine invocations in a trace, in order. -/
def callTexts (trace : List Event) : List (List String) :=
  trace.filterMap (fun e =>
    match e with
    | Event.call texts _ => some texts
    | _ => none)

/-- A column detected as Russian, with the analysis-time Argos code `"ru"`. -/
def colRus : ColumnInfo :=
  { name := "notes", index := 0, detected_language := "rus_Cyrl", argos_code := "ru",
    language_name := "Russian", column_type := "foreign_text", selected := true,
    sample_values := [], override_language := none }

/-- `colRus` after the user overrides the source language to French. -/
def colRusOverrideFra : ColumnInfo := { colRus with override_language := some "fra_Latn" }

/-- A column whose override is the empty string (and with no stored Argos
code). -/
def colVoidOverride : ColumnInfo :=
  { colRus with argos_code := "", override_language := some "" }

/-- A deterministic engine that succeeds on every unit. -/
def echoEngine : Engine :=
  fun texts _ _ => texts.map (fun t => { success := true, translated_text := "T:" ++ t, error := "" })

/-- A deterministic engine that fails (with an error description) exactly on
the text `"a"` and succeeds elsewhere. -/
def failAEngine : Engine :=
  fun texts _ _ => texts.map (fun t =>
    if t = "a" then { success := false, translated_text := "", error := "boom" }
    else { success := true, translated_text := "T:" ++ t, error := "" })

/-- A registry fixture with Russian and French mappings. -/
def toArgosFixture : String → Option String :=
  fun s => if s = "rus_Cyrl" then some "ru" else if s = "fra_Latn" then some "fr" else none

/-- The source-code resolution as claim C4 states it (a reading of the spec):
the column's effective language — override when set, else detected — converted
via the registry, falling back to its 2-letter prefix when no mapping exists.
It does not consult the analysis-time `argos_code` field. -/
def claimedArgosSourceLang (toArgos : String → Option String) (c : ColumnInfo) : String :=
  pyOrOS (toArgos c.effective_language) (pyTake c.effective_language 2)

/-- An engine whose outcomes report success but carry no translated text. -/
def emptySuccessEngine : Engine :=
  fun texts _ _ => texts.map (fun _ => { success := true, translated_text := "", error := "" })

/-- Twelve non-empty cells. -/
def valuesTwelve : List String :=
  ["v01", "v02", "v03", "v04", "v05", "v06", "v07", "v08", "v09", "v10", "v11", "v12"]

/-- An engine failing every unit with an error description. -/
def failErrEngine : Engine :=
  fun texts _ _ => texts.map (fun _ => { success := false, translated_text := "", error := "err" })

/-- An engine failing every unit, with an error description on all but the
unit `"v12"`. -/
def failErrButLastEngine : Engine :=
  fun texts _ _ => texts.map (fun t =>
    { success := false, translated_text := "",
      error := if t = "v12" then "" else "err" })

/-! ### Lemmas about `batchSlices` -/

theorem batchSlicesAux_nil (f b : Nat) : batchSlicesAux f b ([] : List α) = [] := by
  cases f <;> rfl

theorem batchSlicesAux_congr : ∀ (f₁ f₂ b : Nat) (xs : List α), 0 < b →
    xs.length ≤ f₁ → xs.length ≤ f₂ → batchSlicesAux f₁ b xs = batchSlicesAux f₂ b xs := by
  intro f₁
  induction f₁ with
  | zero =>
    intro f₂ b xs _ h₁ _
    have : xs = [] := List.length_eq_zero.mp (Nat.le_zero.mp h₁)
    subst this
    simp [batchSlicesAux_nil]
  | succ f ih =>
    intro f₂ b xs hb h₁ h₂
    cases xs with
    | nil => simp [batchSlicesAux_nil]
    | cons x xs =>
      cases f₂ with
      | zero => simp at h₂
      | succ f₂ =>
        show (x :: xs).take b :: _ = (x :: xs).take b :: _
        congr 1
        apply ih f₂ b _ hb
        · simp only [List.length_drop, List.length_cons] at h₁ ⊢
          omega
        · simp only [List.length_drop, List.length_cons] at h₂ ⊢
          omega

theorem batchSlices_nil (b : Nat) : batchSlices b ([] : List α) = [] := rfl

theorem batchSlices_cons (b : Nat) (hb : 0 < b) (xs : List α) (hxs : xs ≠ []) :
    batchSlices b xs = xs.take b :: batchSlices b (xs.drop b) := by
  obtain ⟨x, xs', rfl⟩ := List.exists_cons_of_ne_nil hxs
  show batchSlicesAux (x :: xs').length b (x :: xs') = _
  rw [List.length_cons]
  show (x :: xs').take b :: batchSlicesAux xs'.length b ((x :: xs').drop b) = _
  congr 1
  apply batchSlicesAux_congr _ _ _ _ hb
  · simp only [List.length_drop, List.length_cons]
    omega
  · exact Nat.le_refl _

theorem batchSlices_flatten (b : Nat) (hb : 0 < b) :
    ∀ (xs : List α), (batchSlices b xs).flatten = xs
  | [] => by simp [batchSlices_nil]
  | x :: xs => by
    rw [batchSlices_cons b hb _ (by simp), List.flatten_cons,
      batchSlices_flatten b hb ((x :: xs).drop b), List.take_append_drop]
termination_by xs => xs.length
decreasing_by
  simp only [List.length_drop, List.length_cons]
  omega

theorem batchSlices_eq_nil_iff (b : Nat) (hb : 0 < b) (xs : List α) :
    batchSlices b xs = [] ↔ xs = [] := by
  constructor
  · intro h
    cases xs with
    | nil => rfl
    | cons x xs => rw [batchSlices_cons b hb _ (by simp)] at h; cases h
  · intro h; subst h; exact batchSlices_nil b

theorem mem_batchSlices (b : Nat) (hb : 0 < b) :
    ∀ (xs : List α) (l : List α), l ∈ batchSlices b xs →
      l ≠ [] ∧ l.length ≤ b ∧ ∀ a ∈ l, a ∈ xs
  | [], l, h => by simp [batchSlices_nil] at h
  | x :: xs, l, h => by
    rw [batchSlices_cons b hb _ (by simp)] at h
    rcases List.mem_cons.mp h with h | h
    · subst h
      refine ⟨?_, ?_, ?_⟩
      · intro hnil
        have := congrArg List.length hnil
        simp only [List.length_take, List.length_cons, List.length_nil] at this
        omega
      · simp only [List.length_take]
        exact Nat.min_le_left _ _
      · intro a ha
        exact List.take_subset _ _ ha
    · obtain ⟨hne, hlen, hsub⟩ := mem_batchSlices b hb ((x :: xs).drop b) l h
      exact ⟨hne, hlen, fun a ha => List.drop_subset _ _ (hsub a ha)⟩
termination_by xs => xs.length
decreasing_by
  simp only [List.length_drop, List.length_cons]
  omega

theorem batchSlicesAux_map (f : α → β) :
    ∀ (fuel b : Nat) (xs : List α),
      batchSlicesAux fuel b (xs.map f) = (batchSlicesAux fuel b xs).map (List.map f) := by
  intro fuel
  induction fuel with
  | zero => intro b xs; cases xs <;> rfl
  | succ fu ih =>
    intro b xs
    cases xs with
    | nil => rfl
    | cons x xs =>
      show ((x :: xs).map f).take b :: batchSlicesAux fu b (((x :: xs).map f).drop b) = _
      rw [← List.map_take, ← List.map_drop, ih]
      rfl

theorem batchSlices_map (f : α → β) (b : Nat) (xs : List α) :
    batchSlices b (xs.map f) = (batchSlices b xs).map (List.map f) := by
  unfold batchSlices
  rw [List.length_map]
  exact batchSlicesAux_map f xs.length b xs

/-! ### Lemmas about the write-back loop -/

theorem applyOutcomes_fst (colName : String) :
    ∀ (ps : List ((Nat × String) × TranslationResult)) (tv : List String)
      (cells : Nat) (ws : List String),
      (applyOutcomes colName ps tv cells ws).1 = writeBack ps tv := by
  intro ps
  induction ps with
  | nil => intro tv cells ws; rfl
  | cons p rest ih =>
    intro tv cells ws
    obtain ⟨⟨i, t⟩, r⟩ := p
    by_cases hok : unitOk r = true
    · simp only [applyOutcomes, if_pos hok, ih, writeBack, writeVal, if_pos hok]
    · simp only [applyOutcomes, if_neg hok, ih, writeBack, writeVal, if_neg hok]

theorem applyOutcomes_cells (colName : String) :
    ∀ (ps : List ((Nat × String) × TranslationResult)) (tv : List String)
      (cells : Nat) (ws : List String),
      (applyOutcomes colName ps tv cells ws).2.1 =
        cells + ps.countP (fun p => unitOk p.2) := by
  intro ps
  induction ps with
  | nil => intro tv cells ws; rfl
  | cons p rest ih =>
    intro tv cells ws
    obtain ⟨⟨i, t⟩, r⟩ := p
    by_cases hok : unitOk r = true
    · simp only [applyOutcomes, if_pos hok, ih, List.countP_cons]
      omega
    · simp only [applyOutcomes, if_neg hok, ih, List.countP_cons]
      simp only [Bool.eq_false_iff.mpr hok, Bool.false_eq_true, if_false, Nat.add_zero]

theorem applyOutcomes_warnings (colName : String) :
    ∀ (ps : List ((Nat × String) × TranslationResult)) (tv : List String)
      (cells : Nat) (ws : List String),
      (applyOutcomes colName ps tv cells ws).2.2 =
        ws ++ ps.filterMap (warnOf colName) := by
  intro ps
  induction ps with
  | nil => intro tv cells ws; simp [applyOutcomes]
  | cons p rest ih =>
    intro tv cells ws
    obtain ⟨⟨i, t⟩, r⟩ := p
    by_cases hok : unitOk r = true
    · simp only [applyOutcomes, if_pos hok, ih, List.filterMap_cons, warnOf, if_pos hok]
    · simp only [applyOutcomes, if_neg hok, ih, List.filterMap_cons, warnOf, if_neg hok]
      by_cases herr : r.error ≠ ""
      · simp only [if_pos herr, List.append_assoc, List.singleton_append]
      · simp only [if_neg herr, List.append_nil]

theorem writeBack_append :
    ∀ (l₁ l₂ : List ((Nat × String) × TranslationResult)) (tv : List String),
      writeBack (l₁ ++ l₂) tv = writeBack l₂ (writeBack l₁ tv) := by
  intro l₁
  induction l₁ with
  | nil => intro l₂ tv; rfl
  | cons p rest ih =>
    intro l₂ tv
    rw [List.cons_append]
    show writeBack (rest ++ l₂) (tv.set p.1.1 (writeVal p)) = _
    rw [ih]
    rfl

theorem writeBack_length :
    ∀ (ps : List ((Nat × String) × TranslationResult)) (tv : List String),
      (writeBack ps tv).length = tv.length := by
  intro ps
  induction ps with
  | nil => intro tv; rfl
  | cons p rest ih => intro tv; simp only [writeBack, ih, List.length_set]

theorem writeBack_get?_of_not_mem :
    ∀ (ps : List ((Nat × String) × TranslationResult)) (tv : List String) (i : Nat),
      (∀ p ∈ ps, p.1.1 ≠ i) → (writeBack ps tv).get? i = tv.get? i := by
  intro ps
  induction ps with
  | nil => intro tv i _; rfl
  | cons p rest ih =>
    intro tv i h
    simp only [writeBack]
    rw [ih _ _ (fun q hq => h q (List.mem_cons_of_mem _ hq))]
    exact List.get?_set_ne _ _ (h p (List.mem_cons_self _ _))

theorem writeBack_get?_of_mem :
    ∀ (ps : List ((Nat × String) × TranslationResult)) (tv : List String)
      (p : (Nat × String) × TranslationResult),
      (ps.map (fun q => q.1.1)).Nodup → p ∈ ps → p.1.1 < tv.length →
      (writeBack ps tv).get? p.1.1 = some (writeVal p) := by
  intro ps
  induction ps with
  | nil => intro tv p _ hp; cases hp
  | cons q rest ih =>
    intro tv p hnd hp hlt
    simp only [List.map_cons, List.nodup_cons] at hnd
    rcases List.mem_cons.mp hp with rfl | hp
    · simp only [writeBack]
      rw [writeBack_get?_of_not_mem]
      · exact List.get?_set_eq_of_lt _ hlt
      · intro r hr heq
        exact hnd.1 (heq ▸ List.mem_map_of_mem (fun q => q.1.1) hr)
    · simp only [writeBack]
      exact ih _ p hnd.2 hp (by rwa [List.length_set])

/-! ### Lemmas about `columnUnits` -/

theorem enumFrom_filter_map_snd {α : Type _} (f : α → Bool) :
    ∀ (l : List α) (k : Nat),
      ((l.enumFrom k).filter (fun p => f p.2)).map Prod.snd = l.filter f := by
  intro l
  induction l with
  | nil => intro k; rfl
  | cons v vs ih =>
    intro k
    simp only [List.enumFrom_cons, List.filter_cons]
    by_cases hv : f v = true
    · simp only [hv, if_pos, List.map_cons, ih]
    · simp only [hv]
      simp only [Bool.false_eq_true, if_false, ih]

theorem columnUnits_map_snd (values : List String) :
    (columnUnits values).map Prod.snd = values.filter (fun v => isTranslatable v) := by
  show ((values.enumFrom 0).filter (fun p => isTranslatable p.2)).map Prod.snd = _
  exact enumFrom_filter_map_snd _ values 0

theorem columnUnits_mem {values : List String} {i : Nat} {t : String} :
    (i, t) ∈ columnUnits values → values.get? i = some t ∧ isTranslatable t = true := by
  intro h
  obtain ⟨h₁, h₂⟩ := List.mem_filter.mp h
  exact ⟨List.mk_mem_enum_iff_get?.mp h₁, h₂⟩

theorem columnUnits_mem_of {values : List String} {i : Nat} {t : String}
    (h : values.get? i = some t) (ht : isTranslatable t = true) :
    (i, t) ∈ columnUnits values :=
  List.mem_filter.mpr ⟨List.mk_mem_enum_iff_get?.mpr h, ht⟩

theorem columnUnits_fst_nodup (values : List String) :
    ((columnUnits values).map (fun p => p.1)).Nodup := by
  have hsub : List.Sublist ((columnUnits values).map (fun p => p.1))
      (values.enum.map (fun p => p.1)) :=
    (List.filter_sublist _).map _
  have hen : (values.enum.map (fun p => p.1)).Nodup := by
    have h := List.nodup_enum_map_fst values
    have hfe : (values.enum.map Prod.fst) = values.enum.map (fun p => p.1) := rfl
    rwa [hfe] at h
  exact hen.sublist hsub

/-! ### The batch loop run to completion -/

theorem columnPairs_eq_chunkPairs (engine : Engine) (tl sl : String) (b : Nat)
    (values : List String) :
    columnPairs engine tl sl b values =
      chunkPairs engine tl sl (batchSlices b (columnUnits values)) := rfl

theorem runBatches_no_cancel (engine : Engine) (cancelled : Nat → Bool)
    (hc : ∀ k, cancelled k = false) (tl sl colName : String) :
    ∀ (chunks : List (List (Nat × String))) (st : ColState),
      runBatches engine cancelled tl sl colName chunks st =
        { translated := writeBack (chunkPairs engine tl sl chunks) st.translated,
          cells := st.cells + (chunkPairs engine tl sl chunks).countP (fun p => unitOk p.2),
          warnings := st.warnings ++ (chunkPairs engine tl sl chunks).filterMap (warnOf colName),
          checkIdx := st.checkIdx + chunks.length,
          trace := st.trace ++ colTrace sl chunks } := by
  intro chunks
  induction chunks with
  | nil =>
    intro st
    cases st
    simp [runBatches, chunkPairs, colTrace, writeBack]
  | cons ch chunks ih =>
    intro st
    rw [runBatches]
    rw [if_neg (by rw [hc st.checkIdx]; exact Bool.false_ne_true)]
    simp only []
    rw [ih]
    have hpairs : chunkPairs engine tl sl (ch :: chunks) =
        ch.zip (engine (ch.map Prod.snd)
            (List.replicate (ch.map Prod.snd).length sl) tl) ++
          chunkPairs engine tl sl chunks := by
      simp [chunkPairs]
    have htrace : colTrace sl (ch :: chunks) =
        [Event.check false,
          Event.call (ch.map Prod.snd) (List.replicate (ch.map Prod.snd).length sl)] ++
          colTrace sl chunks := by
      simp [colTrace]
    rw [hpairs, htrace]
    simp only [ColState.mk.injEq]
    refine ⟨?_, ?_, ?_, ?_, ?_⟩
    · dsimp only
      rw [applyOutcomes_fst, writeBack_append]
    · dsimp only
      rw [applyOutcomes_cells, List.countP_append]
      omega
    · dsimp only
      rw [applyOutcomes_warnings, List.filterMap_append, List.append_assoc]
    · dsimp only
      simp only [List.length_cons]
      omega
    · dsimp only
      rw [List.append_assoc]

/-! ### The column loop run to completion -/

theorem runColumns_no_cancel (engine : Engine) (cancelled : Nat → Bool)
    (hc : ∀ k, cancelled k = false) (isArgos : Bool) (toArgos : String → Option String)
    (b : Nat) (tl : String) :
    ∀ (selected : List (ColumnInfo × List String)) (st : RunState),
      runColumns engine cancelled isArgos toArgos b tl selected st =
        { translated_columns :=
            st.translated_columns ++ runOutputs engine isArgos toArgos b tl selected,
          cells_translated :=
            st.cells_translated + runCells engine isArgos toArgos b tl selected,
          warnings := st.warnings ++ runWarningsList engine isArgos toArgos b tl selected,
          checkIdx := st.checkIdx + runChecks b selected,
          trace := st.trace ++ runTrace isArgos toArgos b selected } := by
  intro selected
  induction selected with
  | nil =>
    intro st
    cases st
    simp [runColumns, runOutputs, runCells, runWarningsList, runTrace, runChecks]
  | cons cv rest ih =>
    intro st
    obtain ⟨col, values⟩ := cv
    rw [runColumns]
    rw [if_neg (by rw [hc st.checkIdx]; exact Bool.false_ne_true)]
    unfold processColumn
    dsimp only
    rw [runBatches_no_cancel engine cancelled hc]
    rw [ih]
    simp only [RunState.mk.injEq]
    refine ⟨?_, ?_, ?_, ?_, ?_⟩
    · dsimp only
      simp only [runOutputs, List.map_cons, List.append_assoc, List.singleton_append]
      rfl
    · dsimp only
      simp only [runCells, List.map_cons, List.sum_cons]
      have : colCells engine tl (columnSourceLang isArgos toArgos col) b values =
          (chunkPairs engine tl (columnSourceLang isArgos toArgos col)
            (batchSlices b (columnUnits values))).countP (fun p => unitOk p.2) := rfl
      rw [this]
      omega
    · dsimp only
      simp only [runWarningsList, List.map_cons, List.flatten_cons, List.append_assoc]
      rfl
    · dsimp only
      simp only [runChecks, List.map_cons, List.sum_cons]
      omega
    · dsimp only
      simp only [runTrace, List.map_cons, List.flatten_cons, List.append_assoc,
        List.cons_append, List.singleton_append, List.nil_append]

/-! ### The aligned-engine view of a completed column -/

theorem flatten_zip_of_aligned {α β : Type _} :
    ∀ (chunks : List (List α)) (f : List α → List β),
      (∀ ch ∈ chunks, (f ch).length = ch.length) →
      (chunks.map (fun ch => ch.zip (f ch))).flatten =
        chunks.flatten.zip ((chunks.map f).flatten) := by
  intro chunks
  induction chunks with
  | nil => intro f _; rfl
  | cons ch chunks ih =>
    intro f hf
    simp only [List.map_cons, List.flatten_cons]
    rw [List.zip_append (by rw [hf ch (List.mem_cons_self _ _)]),
      ih f (fun c hc => hf c (List.mem_cons_of_mem _ hc))]

theorem flatten_map_length_of_aligned {α β : Type _} :
    ∀ (chunks : List (List α)) (f : List α → List β),
      (∀ ch ∈ chunks, (f ch).length = ch.length) →
      ((chunks.map f).flatten).length = chunks.flatten.length := by
  intro chunks
  induction chunks with
  | nil => intro f _; rfl
  | cons ch chunks ih =>
    intro f hf
    simp only [List.map_cons, List.flatten_cons, List.length_append]
    rw [hf ch (List.mem_cons_self _ _), ih f (fun c hc => hf c (List.mem_cons_of_mem _ hc))]

theorem columnOutcomes_length (engine : Engine) (hal : Aligned engine) (tl sl : String)
    (b : Nat) (hb : 0 < b) (values : List String) :
    (columnOutcomes engine tl sl b values).length = (columnUnits values).length := by
  unfold columnOutcomes
  rw [flatten_map_length_of_aligned _ _ (fun ch _ => by rw [hal, List.length_map]),
    batchSlices_flatten b hb]

theorem columnPairs_eq_zip (engine : Engine) (hal : Aligned engine) (tl sl : String)
    (b : Nat) (hb : 0 < b) (values : List String) :
    columnPairs engine tl sl b values =
      (columnUnits values).zip (columnOutcomes engine tl sl b values) := by
  unfold columnPairs columnOutcomes
  rw [flatten_zip_of_aligned _ _ (fun ch _ => by rw [hal, List.length_map]),
    batchSlices_flatten b hb]

/-! ### Trace predicates for cancellation behaviour -/

theorem hasTrueCheck_append (a b : List Event) :
    hasTrueCheck (a ++ b) = (hasTrueCheck a || hasTrueCheck b) := by
  induction a with
  | nil => rfl
  | cons e r ih =>
    cases e with
    | check res =>
      cases res with
      | true => rfl
      | false => simpa [hasTrueCheck] using ih
    | call texts langs => simpa [hasTrueCheck] using ih
    | commit n => simpa [hasTrueCheck] using ih

theorem noCallAfterTrueCheck_of_hasTrueCheck_eq_false (a : List Event)
    (h : hasTrueCheck a = false) : noCallAfterTrueCheck a = true := by
  induction a with
  | nil => rfl
  | cons e r ih =>
    cases e with
    | check res =>
      cases res with
      | true => simp [hasTrueCheck] at h
      | false => exact ih (by simpa [hasTrueCheck] using h)
    | call texts langs => exact ih (by simpa [hasTrueCheck] using h)
    | commit n => exact ih (by simpa [hasTrueCheck] using h)

theorem noCallAfterTrueCheck_append_notCall (a : List Event) (e : Event)
    (he : notCall e = true) (ha : noCallAfterTrueCheck a = true) :
    noCallAfterTrueCheck (a ++ [e]) = true := by
  induction a with
  | nil =>
    cases e with
    | check res => cases res <;> rfl
    | call texts langs => simp [notCall] at he
    | commit n => rfl
  | cons x r ih =>
    cases x with
    | check res =>
      cases res with
      | true =>
        simp only [noCallAfterTrueCheck, List.cons_append] at ha ⊢
        simp [List.all_append, ha, he]
      | false =>
        simp only [noCallAfterTrueCheck, List.cons_append] at ha ⊢
        exact ih ha
    | call texts langs =>
      simp only [noCallAfterTrueCheck, List.cons_append] at ha ⊢
      exact ih ha
    | commit n =>
      simp only [noCallAfterTrueCheck, List.cons_append] at ha ⊢
      exact ih ha

theorem noCallAfterTrueCheck_append_of_hasTrueCheck_eq_false (a b : List Event)
    (h : hasTrueCheck a = false) :
    noCallAfterTrueCheck (a ++ b) = noCallAfterTrueCheck b := by
  induction a with
  | nil => rfl
  | cons e r ih =>
    cases e with
    | check res =>
      cases res with
      | true => simp [hasTrueCheck] at h
      | false =>
        simp only [List.cons_append, noCallAfterTrueCheck]
        exact ih (by simpa [hasTrueCheck] using h)
    | call texts langs =>
      simp only [List.cons_append, noCallAfterTrueCheck]
      exact ih (by simpa [hasTrueCheck] using h)
    | commit n =>
      simp only [List.cons_append, noCallAfterTrueCheck]
      exact ih (by simpa [hasTrueCheck] using h)

theorem callsPrecededAux_append (b : List Event) :
    ∀ (a : List Event) (prev : Event),
      callsPrecededAux prev (a ++ b) =
        (callsPrecededAux prev a && callsPrecededAux (a.getLastD prev) b) := by
  intro a
  induction a with
  | nil => intro prev; simp [callsPrecededAux, List.getLastD]
  | cons e r ih =>
    intro prev
    simp only [List.cons_append, callsPrecededAux, List.getLastD_cons, List.append_eq]
    rw [ih e, Bool.and_assoc]

theorem callsPreceded_append (a bl : List Event)
    (ha : callsPreceded a = true)
    (hbl : ∀ prev, callsPrecededAux prev bl = true)
    (hhd : ∀ e r, bl = e :: r → notCall e = true) :
    callsPreceded (a ++ bl) = true := by
  cases a with
  | nil =>
    cases bl with
    | nil => rfl
    | cons e r =>
      simp only [List.nil_append, callsPreceded]
      have h1 := hbl e
      simp only [callsPrecededAux, hhd e r rfl, if_true, Bool.true_and] at h1
      simp only [hhd e r rfl, Bool.true_and]
      exact h1
  | cons x xs =>
    simp only [List.cons_append, callsPreceded] at ha ⊢
    have h12 : notCall x = true ∧ callsPrecededAux x xs = true := by simpa using ha
    rw [h12.1, Bool.true_and, callsPrecededAux_append bl xs x, h12.2, Bool.true_and]
    exact hbl _

theorem runBatches_safe (engine : Engine) (cancelled : Nat → Bool)
    (mon : CancelMonotone cancelled) (tl sl colName : String) :
    ∀ (chunks : List (List (Nat × String))) (st : ColState),
      SafeState cancelled st.trace st.checkIdx →
      SafeState cancelled (runBatches engine cancelled tl sl colName chunks st).trace
        (runBatches engine cancelled tl sl colName chunks st).checkIdx := by
  intro chunks
  induction chunks with
  | nil => intro st h; exact h
  | cons ch chunks ih =>
    intro st h
    obtain ⟨h1, h2, h3⟩ := h
    rw [runBatches]
    by_cases hc : cancelled st.checkIdx = true
    · rw [if_pos hc]
      refine ⟨?_, ?_, ?_⟩
      · exact noCallAfterTrueCheck_append_notCall _ _ rfl h1
      · exact callsPreceded_append _ _ h2 (fun prev => rfl)
          (fun e r hr => by cases hr; rfl)
      · intro _
        exact mon st.checkIdx (st.checkIdx + 1) (Nat.le_succ _) hc
    · rw [if_neg hc]
      dsimp only
      apply ih
      have hfalse : hasTrueCheck st.trace = false := by
        cases hht : hasTrueCheck st.trace with
        | false => rfl
        | true => exact absurd (h3 hht) hc
      refine ⟨?_, ?_, ?_⟩
      · dsimp only
        rw [noCallAfterTrueCheck_append_of_hasTrueCheck_eq_false _ _ hfalse]
        rfl
      · dsimp only
        exact callsPreceded_append _ _ h2 (fun prev => rfl)
          (fun e r hr => by cases hr; rfl)
      · dsimp only
        rw [hasTrueCheck_append]
        simp [hfalse, hasTrueCheck]

theorem runColumns_safe (engine : Engine) (cancelled : Nat → Bool)
    (mon : CancelMonotone cancelled) (isArgos : Bool) (toArgos : String → Option String)
    (b : Nat) (tl : String) :
    ∀ (selected : List (ColumnInfo × List String)) (st : RunState),
      SafeState cancelled st.trace st.checkIdx →
      SafeState cancelled
        (runColumns engine cancelled isArgos toArgos b tl selected st).trace
        (runColumns engine cancelled isArgos toArgos b tl selected st).checkIdx := by
  intro selected
  induction selected with
  | nil => intro st h; exact h
  | cons cv rest ih =>
    intro st h
    obtain ⟨h1, h2, h3⟩ := h
    obtain ⟨col, values⟩ := cv
    rw [runColumns]
    by_cases hc : cancelled st.checkIdx = true
    · rw [if_pos hc]
      refine ⟨?_, ?_, ?_⟩
      · exact noCallAfterTrueCheck_append_notCall _ _ rfl h1
      · exact callsPreceded_append _ _ h2 (fun prev => rfl)
          (fun e r hr => by cases hr; rfl)
      · intro _
        exact mon st.checkIdx (st.checkIdx + 1) (Nat.le_succ _) hc
    · rw [if_neg hc]
      apply ih
      have hfalse : hasTrueCheck st.trace = false := by
        cases hht : hasTrueCheck st.trace with
        | false => rfl
        | true => exact absurd (h3 hht) hc
      have hst1 : SafeState cancelled (st.trace ++ [Event.check false]) (st.checkIdx + 1) := by
        refine ⟨?_, ?_, ?_⟩
        · exact noCallAfterTrueCheck_append_notCall _ _ rfl h1
        · exact callsPreceded_append _ _ h2 (fun prev => rfl)
            (fun e r hr => by cases hr; rfl)
        · rw [hasTrueCheck_append]
          simp [hfalse, hasTrueCheck]
      unfold processColumn
      dsimp only
      have hcst := runBatches_safe engine cancelled mon tl
        (columnSourceLang isArgos toArgos col) col.name
        (batchSlices b (columnUnits values))
        { translated := List.replicate values.length "", cells := st.cells_translated,
          warnings := st.warnings, checkIdx := st.checkIdx + 1,
          trace := st.trace ++ [Event.check false] } hst1
      obtain ⟨g1, g2, g3⟩ := hcst
      refine ⟨?_, ?_, ?_⟩
      · exact noCallAfterTrueCheck_append_notCall _ _ rfl g1
      · exact callsPreceded_append _ _ g2 (fun prev => rfl)
          (fun e r hr => by cases hr; rfl)
      · rw [hasTrueCheck_append]
        intro hor
        apply g3
        cases hht : hasTrueCheck (runBatches engine cancelled tl
            (columnSourceLang isArgos toArgos col) col.name
            (batchSlices b (columnUnits values))
            { translated := List.replicate values.length "", cells := st.cells_translated,
              warnings := st.warnings, checkIdx := st.checkIdx + 1,
              trace := st.trace ++ [Event.check false] }).trace with
        | true => rfl
        | false =>
          rw [hht] at hor
          simp [hasTrueCheck] at hor

/-! ### Shape of events under arbitrary cancellation -/

theorem runBatches_mem_call (engine : Engine) (cancelled : Nat → Bool)
    (tl sl colName : String) :
    ∀ (chunks : List (List (Nat × String))) (st : ColState) (texts langs : List String),
      Event.call texts langs ∈ (runBatches engine cancelled tl sl colName chunks st).trace →
      Event.call texts langs ∈ st.trace ∨
        ∃ ch, ch ∈ chunks ∧ texts = ch.map Prod.snd ∧
          langs = List.replicate (ch.map Prod.snd).length sl := by
  intro chunks
  induction chunks with
  | nil => intro st texts langs h; exact Or.inl h
  | cons ch chunks ih =>
    intro st texts langs h
    rw [runBatches] at h
    by_cases hc : cancelled st.checkIdx = true
    · rw [if_pos hc] at h
      dsimp only at h
      rcases List.mem_append.mp h with h | h
      · exact Or.inl h
      · simp at h
    · rw [if_neg hc] at h
      dsimp only at h
      rcases ih _ texts langs h with h | ⟨c, hc1, hc2, hc3⟩
      · dsimp only at h
        rcases List.mem_append.mp h with h | h
        · exact Or.inl h
        · rcases List.mem_cons.mp h with h | h
          · cases h
          · rcases List.mem_cons.mp h with h | h
            · cases h
              exact Or.inr ⟨ch, List.mem_cons_self _ _, rfl, rfl⟩
            · cases h
      · exact Or.inr ⟨c, List.mem_cons_of_mem _ hc1, hc2, hc3⟩

theorem runBatches_mem_commit (engine : Engine) (cancelled : Nat → Bool)
    (tl sl colName : String) :
    ∀ (chunks : List (List (Nat × String))) (st : ColState) (n : String),
      Event.commit n ∈ (runBatches engine cancelled tl sl colName chunks st).trace →
      Event.commit n ∈ st.trace := by
  intro chunks
  induction chunks with
  | nil => intro st n h; exact h
  | cons ch chunks ih =>
    intro st n h
    rw [runBatches] at h
    by_cases hc : cancelled st.checkIdx = true
    · rw [if_pos hc] at h
      dsimp only at h
      rcases List.mem_append.mp h with h | h
      · exact h
      · simp at h
    · rw [if_neg hc] at h
      dsimp only at h
      have h2 := ih _ n h
      dsimp only at h2
      rcases List.mem_append.mp h2 with h2 | h2
      · exact h2
      · simp at h2

theorem runColumns_mem_call (engine : Engine) (cancelled : Nat → Bool)
    (isArgos : Bool) (toArgos : String → Option String) (b : Nat) (tl : String) :
    ∀ (selected : List (ColumnInfo × List String)) (st : RunState)
      (texts langs : List String),
      Event.call texts langs ∈
        (runColumns engine cancelled isArgos toArgos b tl selected st).trace →
      Event.call texts langs ∈ st.trace ∨
        ∃ cv, cv ∈ selected ∧
          ∃ ch, ch ∈ batchSlices b (columnUnits cv.2) ∧ texts = ch.map Prod.snd ∧
            langs = List.replicate (ch.map Prod.snd).length
              (columnSourceLang isArgos toArgos cv.1) := by
  intro selected
  induction selected with
  | nil => intro st texts langs h; exact Or.inl h
  | cons cv rest ih =>
    intro st texts langs h
    obtain ⟨col, values⟩ := cv
    rw [runColumns] at h
    by_cases hc : cancelled st.checkIdx = true
    · rw [if_pos hc] at h
      dsimp only at h
      rcases List.mem_append.mp h with h | h
      · exact Or.inl h
      · simp at h
    · rw [if_neg hc] at h
      rcases ih _ texts langs h with h | ⟨cv, hcv1, hcv2⟩
      · unfold processColumn at h
        dsimp only at h
        rcases List.mem_append.mp h with h | h
        · rcases runBatches_mem_call engine cancelled tl _ _ _ _ texts langs h with h | hsh
          · dsimp only at h
            rcases List.mem_append.mp h with h | h
            · exact Or.inl h
            · simp at h
          · exact Or.inr ⟨(col, values), List.mem_cons_self _ _, hsh⟩
        · simp at h
      · exact Or.inr ⟨cv, List.mem_cons_of_mem _ hcv1, hcv2⟩

theorem runColumns_translated_mono (engine : Engine) (cancelled : Nat → Bool)
    (isArgos : Bool) (toArgos : String → Option String) (b : Nat) (tl : String) :
    ∀ (selected : List (ColumnInfo × List String)) (st : RunState)
      (x : String × List String),
      x ∈ st.translated_columns →
      x ∈ (runColumns engine cancelled isArgos toArgos b tl selected st).translated_columns := by
  intro selected
  induction selected with
  | nil => intro st x h; exact h
  | cons cv rest ih =>
    intro st x h
    obtain ⟨col, values⟩ := cv
    rw [runColumns]
    by_cases hc : cancelled st.checkIdx = true
    · rw [if_pos hc]
      exact h
    · rw [if_neg hc]
      apply ih
      unfold processColumn
      dsimp only
      exact List.mem_append.mpr (Or.inl h)

theorem runColumns_commits (engine : Engine) (cancelled : Nat → Bool)
    (isArgos : Bool) (toArgos : String → Option String) (b : Nat) (tl : String) :
    ∀ (selected : List (ColumnInfo × List String)) (st : RunState),
      (∀ n, Event.commit n ∈ st.trace →
        ∃ vs, (n, vs) ∈ st.translated_columns) →
      ∀ n, Event.commit n ∈
          (runColumns engine cancelled isArgos toArgos b tl selected st).trace →
        ∃ vs, (n, vs) ∈
          (runColumns engine cancelled isArgos toArgos b tl selected st).translated_columns := by
  intro selected
  induction selected with
  | nil => intro st hinv n h; exact hinv n h
  | cons cv rest ih =>
    intro st hinv n h
    obtain ⟨col, values⟩ := cv
    rw [runColumns] at h ⊢
    by_cases hc : cancelled st.checkIdx = true
    · rw [if_pos hc] at h ⊢
      dsimp only at h ⊢
      rcases List.mem_append.mp h with h | h
      · exact hinv n h
      · simp at h
    · rw [if_neg hc] at h ⊢
      apply ih _ _ n h
      intro m hm
      unfold processColumn at hm ⊢
      dsimp only at hm ⊢
      rcases List.mem_append.mp hm with hm | hm
      · have hm2 := runBatches_mem_commit engine cancelled tl _ _ _ _ m hm
        dsimp only at hm2
        rcases List.mem_append.mp hm2 with hm2 | hm2
        · obtain ⟨vs, hvs⟩ := hinv m hm2
          exact ⟨vs, List.mem_append.mpr (Or.inl hvs)⟩
        · simp at hm2
      · have hmeq := List.mem_singleton.mp hm
        injection hmeq with hmn
        subst hmn
        exact ⟨_, List.mem_append.mpr (Or.inr (List.mem_singleton.mpr rfl))⟩

/-! ### Per-row characterization of a completed column's output -/

theorem columnOutput_length (engine : Engine) (tl sl : String) (b : Nat)
    (values : List String) :
    (columnOutput engine tl sl b values).length = values.length := by
  unfold columnOutput
  rw [writeBack_length, List.length_replicate]

theorem columnPairs_fst_mem (engine : Engine) (tl sl : String) (b : Nat)
    (values : List String) (q : (Nat × String) × TranslationResult)
    (hq : q ∈ columnPairs engine tl sl b values) (hb : 0 < b) :
    q.1 ∈ columnUnits values := by
  unfold columnPairs at hq
  obtain ⟨l, hl, hql⟩ := List.mem_flatten.mp hq
  obtain ⟨ch, hch, rfl⟩ := List.mem_map.mp hl
  obtain ⟨hq1, _⟩ := List.of_mem_zip hql
  exact (mem_batchSlices b hb _ ch hch).2.2 _ hq1

theorem columnOutput_get_not_translatable (engine : Engine) (tl sl : String)
    (b : Nat) (hb : 0 < b) (values : List String) (i : Nat) (v : String)
    (hv : values.get? i = some v) (hnt : isTranslatable v = false) :
    (columnOutput engine tl sl b values).get? i = some "" := by
  unfold columnOutput
  rw [writeBack_get?_of_not_mem]
  · have hlt : i < values.length := by
      obtain ⟨h, _⟩ := List.get?_eq_some.mp hv
      exact h
    simp [List.get?_eq_getElem?, List.getElem?_replicate, hlt]
  · intro q hq heq
    have hqu := columnPairs_fst_mem engine tl sl b values q hq hb
    obtain ⟨⟨qi, qt⟩, qr⟩ := q
    simp only at heq
    subst heq
    obtain ⟨hget, htr⟩ := columnUnits_mem hqu
    rw [hv] at hget
    injection hget with hveq
    rw [← hveq] at htr
    rw [htr] at hnt
    cases hnt

theorem columnOutput_get_unit (engine : Engine) (hal : Aligned engine) (tl sl : String)
    (b : Nat) (hb : 0 < b) (values : List String) (p i : Nat) (t : String)
    (r : TranslationResult)
    (hu : (columnUnits values).get? p = some (i, t))
    (hr : (columnOutcomes engine tl sl b values).get? p = some r) :
    (columnOutput engine tl sl b values).get? i =
      some (if unitOk r then r.translated_text else t) := by
  unfold columnOutput
  rw [columnPairs_eq_zip engine hal tl sl b hb values]
  have hlen : (columnUnits values).length ≤ (columnOutcomes engine tl sl b values).length :=
    Nat.le_of_eq (columnOutcomes_length engine hal tl sl b hb values).symm
  have hzip : ((columnUnits values).zip (columnOutcomes engine tl sl b values)).get? p =
      some ((i, t), r) := by
    rw [List.get?_eq_getElem?] at hu hr ⊢
    rw [List.getElem?_zip_eq_some]
    exact ⟨hu, hr⟩
  have hmem : ((i, t), r) ∈ (columnUnits values).zip (columnOutcomes engine tl sl b values) :=
    List.get?_mem hzip
  have hnd : (((columnUnits values).zip (columnOutcomes engine tl sl b values)).map
      (fun q => q.1.1)).Nodup := by
    have hmapmap : (((columnUnits values).zip (columnOutcomes engine tl sl b values)).map
        (fun q => q.1.1)) =
        ((((columnUnits values).zip (columnOutcomes engine tl sl b values)).map
          Prod.fst).map (fun u => u.1)) := by
      rw [List.map_map]
      rfl
    rw [hmapmap, List.map_fst_zip _ _ hlen]
    exact columnUnits_fst_nodup values
  have hwv := writeBack_get?_of_mem _ (List.replicate values.length "") ((i, t), r)
    hnd hmem (by
      rw [List.length_replicate]
      obtain ⟨hget, _⟩ := columnUnits_mem (List.get?_mem hu)
      obtain ⟨h, _⟩ := List.get?_eq_some.mp hget
      exact h)
  exact hwv

/-! ### Unfolding `translate` for a non-empty selection -/

theorem translate_state (engine : Engine) (cancelled : Nat → Bool) (isArgos : Bool)
    (toArgos : String → Option String) (b : Nat) (target_language : String)
    (nRows : Nat) (selected : List (ColumnInfo × List String))
    (init : List (String × List String)) (hsel : selected ≠ []) :
    (CSVProcessor.translate engine cancelled isArgos toArgos b target_language nRows
        selected init).state =
      runColumns engine cancelled isArgos toArgos b
        (engineTargetLang isArgos toArgos target_language) selected (initState init) := by
  unfold CSVProcessor.translate
  rw [if_neg (fun hcontra => hsel (List.isEmpty_iff.mp hcontra))]
  rfl

theorem translate_result (engine : Engine) (cancelled : Nat → Bool) (isArgos : Bool)
    (toArgos : String → Option String) (b : Nat) (target_language : String)
    (nRows : Nat) (selected : List (ColumnInfo × List String))
    (init : List (String × List String)) (hsel : selected ≠ []) :
    (CSVProcessor.translate engine cancelled isArgos toArgos b target_language nRows
        selected init).result =
      { success := !(cancelled (runColumns engine cancelled isArgos toArgos b
            (engineTargetLang isArgos toArgos target_language) selected
            (initState init)).checkIdx),
        output_path := none, rows_processed := nRows,
        columns_translated := selected.length,
        cells_translated := (runColumns engine cancelled isArgos toArgos b
          (engineTargetLang isArgos toArgos target_language) selected
          (initState init)).cells_translated,
        error := none,
        warnings := ((runColumns engine cancelled isArgos toArgos b
          (engineTargetLang isArgos toArgos target_language) selected
          (initState init)).warnings).take 10 } := by
  unfold CSVProcessor.translate
  rw [if_neg (fun hcontra => hsel (List.isEmpty_iff.mp hcontra))]
  rfl

theorem translate_total_cells (engine : Engine) (cancelled : Nat → Bool) (isArgos : Bool)
    (toArgos : String → Option String) (b : Nat) (target_language : String)
    (nRows : Nat) (selected : List (ColumnInfo × List String))
    (init : List (String × List String)) (hsel : selected ≠ []) :
    (CSVProcessor.translate engine cancelled isArgos toArgos b target_language nRows
        selected init).total_cells = totalCells selected := by
  unfold CSVProcessor.translate
  rw [if_neg (fun hcontra => hsel (List.isEmpty_iff.mp hcontra))]

/-- Every text a batch invocation carries passed the cell filter; in
particular the null marker `"nan"` is never sent to the engine. -/
theorem call_texts_translatable (engine : Engine) (cancelled : Nat → Bool)
    (isArgos : Bool) (toArgos : String → Option String) (b : Nat) (hb : 0 < b)
    (tl : String) (selected : List (ColumnInfo × List String)) (st : RunState)
    (texts langs : List String)
    (hcall : Event.call texts langs ∈
      (runColumns engine cancelled isArgos toArgos b tl selected st).trace)
    (hst : ∀ ts ls, Event.call ts ls ∈ st.trace → ∀ a ∈ ts, isTranslatable a = true) :
    ∀ a ∈ texts, isTranslatable a = true := by
  rcases runColumns_mem_call engine cancelled isArgos toArgos b tl selected st
      texts langs hcall with h | ⟨cv, _, ch, hch, htexts, _⟩
  · exact hst texts langs h
  · intro a ha
    rw [htexts] at ha
    obtain ⟨u, hu, rfl⟩ := List.mem_map.mp ha
    obtain ⟨ui, ut⟩ := u
    have humem := (mem_batchSlices b hb _ ch hch).2.2 _ hu
    exact (columnUnits_mem humem).2

/-! ### Engine-invocation texts of a trace -/

theorem callTexts_append (a b : List Event) :
    callTexts (a ++ b) = callTexts a ++ callTexts b :=
  List.filterMap_append a b _

theorem callTexts_colTrace (sl : String) :
    ∀ (chunks : List (List (Nat × String))),
      callTexts (colTrace sl chunks) = chunks.map (fun ch => ch.map Prod.snd) := by
  intro chunks
  induction chunks with
  | nil => rfl
  | cons ch chunks ih =>
    simp only [colTrace, List.map_cons, List.flatten_cons] at ih ⊢
    rw [callTexts_append, ih]
    rfl

theorem callTexts_runTrace (isArgos : Bool) (toArgos : String → Option String) (b : Nat) :
    ∀ (selected : List (ColumnInfo × List String)),
      callTexts (runTrace isArgos toArgos b selected) =
        (selected.map (fun cv =>
          batchSlices b (cv.2.filter (fun v => isTranslatable v)))).flatten := by
  intro selected
  induction selected with
  | nil => rfl
  | cons cv rest ih =>
    simp only [runTrace, List.map_cons, List.flatten_cons] at ih ⊢
    rw [callTexts_append]
    have hblock : callTexts (Event.check false ::
        (colTrace (columnSourceLang isArgos toArgos cv.1) (batchSlices b (columnUnits cv.2)) ++
          [Event.commit cv.1.name])) =
        (batchSlices b (columnUnits cv.2)).map (fun ch => ch.map Prod.snd) := by
      show callTexts (colTrace _ _ ++ [Event.commit cv.1.name]) = _
      rw [callTexts_append, callTexts_colTrace]
      simp [callTexts]
    rw [hblock, ih]
    congr 1
    rw [← columnUnits_map_snd, batchSlices_map]

/-- Every batch slice except the last has exactly the configured size. -/
theorem batchSlices_get?_length (b : Nat) (hb : 0 < b) :
    ∀ (xs : List α) (j : Nat) (ch : List α),
      (batchSlices b xs).get? j = some ch →
      j + 1 < (batchSlices b xs).length → ch.length = b
  | [], j, ch, h, _ => by rw [batchSlices_nil] at h; cases h
  | x :: xs, j, ch, h, hlt => by
    rw [batchSlices_cons b hb _ (by simp)] at h hlt
    cases j with
    | zero =>
      simp only [List.get?] at h
      injection h with h
      subst h
      simp only [List.length_cons] at hlt
      have hdrop : batchSlices b ((x :: xs).drop b) ≠ [] := by
        intro hnil
        rw [hnil] at hlt
        simp at hlt
      have hxs : (x :: xs).drop b ≠ [] := by
        intro hnil
        exact hdrop (by rw [hnil]; exact batchSlices_nil b)
      have hlen : b < (x :: xs).length := by
        by_contra hcontra
        push_neg at hcontra
        exact hxs (List.drop_eq_nil_of_le hcontra)
      simp only [List.length_take]
      omega
    | succ j =>
      simp only [List.get?] at h
      simp only [List.length_cons] at hlt
      exact batchSlices_get?_length b hb ((x :: xs).drop b) j ch h (by omega)
termination_by xs => xs.length
decreasing_by
  simp only [List.length_drop, List.length_cons]
  omega

/-! ### The translated array under arbitrary cancellation -/

theorem runBatches_translated_length (engine : Engine) (cancelled : Nat → Bool)
    (tl sl colName : String) :
    ∀ (chunks : List (List (Nat × String))) (st : ColState),
      (runBatches engine cancelled tl sl colName chunks st).translated.length =
        st.translated.length := by
  intro chunks
  induction chunks with
  | nil => intro st; rfl
  | cons ch chunks ih =>
    intro st
    rw [runBatches]
    by_cases hc : cancelled st.checkIdx = true
    · rw [if_pos hc]
    · rw [if_neg hc]
      dsimp only
      rw [ih]
      dsimp only
      rw [applyOutcomes_fst, writeBack_length]

theorem runBatches_translated_untouched (engine : Engine) (cancelled : Nat → Bool)
    (tl sl colName : String) :
    ∀ (chunks : List (List (Nat × String))) (st : ColState) (j : Nat),
      (∀ q ∈ chunkPairs engine tl sl chunks, q.1.1 ≠ j) →
      (runBatches engine cancelled tl sl colName chunks st).translated.get? j =
        st.translated.get? j := by
  intro chunks
  induction chunks with
  | nil => intro st j _; rfl
  | cons ch chunks ih =>
    intro st j hj
    have hsplit : chunkPairs engine tl sl (ch :: chunks) =
        ch.zip (engine (ch.map Prod.snd)
            (List.replicate (ch.map Prod.snd).length sl) tl) ++
          chunkPairs engine tl sl chunks := by
      simp [chunkPairs]
    rw [hsplit] at hj
    rw [runBatches]
    by_cases hc : cancelled st.checkIdx = true
    · rw [if_pos hc]
    · rw [if_neg hc]
      dsimp only
      rw [ih _ j (fun q hq => hj q (List.mem_append.mpr (Or.inr hq)))]
      dsimp only
      rw [applyOutcomes_fst]
      exact writeBack_get?_of_not_mem _ _ j
        (fun q hq => hj q (List.mem_append.mpr (Or.inl hq)))

theorem runColumns_mem_translated (engine : Engine) (cancelled : Nat → Bool)
    (isArgos : Bool) (toArgos : String → Option String) (b : Nat) (hb : 0 < b)
    (tl : String) :
    ∀ (selected : List (ColumnInfo × List String)) (st : RunState)
      (x : String × List String),
      x ∈ (runColumns engine cancelled isArgos toArgos b tl selected st).translated_columns →
      x ∈ st.translated_columns ∨
        ∃ cv, cv ∈ selected ∧ x.1 = cv.1.name ∧ x.2.length = cv.2.length ∧
          ∀ j v, cv.2.get? j = some v → isTranslatable v = false → x.2.get? j = some "" := by
  intro selected
  induction selected with
  | nil => intro st x h; exact Or.inl h
  | cons cv rest ih =>
    intro st x h
    obtain ⟨col, values⟩ := cv
    rw [runColumns] at h
    by_cases hc : cancelled st.checkIdx = true
    · rw [if_pos hc] at h
      exact Or.inl h
    · rw [if_neg hc] at h
      rcases ih _ x h with h2 | ⟨cv, hcv, hx⟩
      · unfold processColumn at h2
        dsimp only at h2
        rcases List.mem_append.mp h2 with h2 | h2
        · exact Or.inl h2
        · rcases List.mem_singleton.mp h2 with rfl
          refine Or.inr ⟨(col, values), List.mem_cons_self _ _, rfl, ?_, ?_⟩
          · rw [runBatches_translated_length]
            exact List.length_replicate _ _
          · intro j v hv hnt
            rw [runBatches_translated_untouched engine cancelled tl _ _ _ _ j]
            · have hjlt : j < values.length := by
                obtain ⟨hlt, _⟩ := List.get?_eq_some.mp hv
                exact hlt
              simp [List.get?_eq_getElem?, List.getElem?_replicate, hjlt]
            · intro q hq heq
              have hqu := columnPairs_fst_mem engine tl
                (columnSourceLang isArgos toArgos col) b values q
                (by rw [columnPairs_eq_chunkPairs]; exact hq) hb
              obtain ⟨⟨qi, qt⟩, qr⟩ := q
              simp only at heq
              subst heq
              obtain ⟨hget, htr⟩ := columnUnits_mem hqu
              rw [hv] at hget
              injection hget with hveq
              rw [← hveq] at htr
              rw [htr] at hnt
              cases hnt
      · exact Or.inr ⟨cv, List.mem_cons_of_mem _ hcv, hx⟩

theorem isTranslatable_ne_empty {v : String} (h : isTranslatable v = true) : v ≠ "" := by
  intro hv
  rw [hv] at h
  cases h

theorem unitOk_false_of_failure {r : TranslationResult} (h : r.success = false) :
    unitOk r = false := by
  simp [unitOk, h]

theorem unitOk_false_of_empty_text {r : TranslationResult} (h : r.translated_text = "") :
    unitOk r = false := by
  simp [unitOk, h]

/-! ## Claim C7 -/

/-- C7 counterexample: a column whose user override is present but equal to
the empty string.  `effective_language` returns the detected language
(`"rus_Cyrl"`), not the override's value (`""`), so the override does not win
"regardless of its value". -/
theorem c7_counterexample :
    colVoidOverride.override_language = some "" ∧
    colVoidOverride.effective_language = "rus_Cyrl" ∧
    colVoidOverride.effective_language ≠ "" := by decide

/-- C7 (amended): `effective_language` equals the user override whenever a
non-empty override is present, and equals the detected dominant language when
the override is absent or empty — regardless of classification confidence
(no other field is consulted). -/
theorem c7_effective_language (c : ColumnInfo) :
    (∀ s, c.override_language = some s → s ≠ "" → c.effective_language = s) ∧
    ((c.override_language = none ∨ c.override_language = some "") →
      c.effective_language = c.detected_language) := by
  constructor
  · intro s hs hne
    simp [ColumnInfo.effective_language, hs, hne]
  · intro h
    rcases h with h | h <;> simp [ColumnInfo.effective_language, h]

/-- C7 witness: the amended theorem applied at concrete columns. -/
theorem c7_witness :
    colRusOverrideFra.effective_language = "fra_Latn" ∧
    colVoidOverride.effective_language = colVoidOverride.detected_language :=
  ⟨(c7_effective_language colRusOverrideFra).1 "fra_Latn" rfl (by decide),
   (c7_effective_language colVoidOverride).2 (Or.inr rfl)⟩

/-! ## Claim C6 -/

/-- C6: the derived output column for a translated column named `colName` is
`colName_<short>` where the short code is the 2-letter prefix of the primary
target code (for script-qualified targets whose base code reaches the first
underscore at position ≥ 2, which is what `hpre` states), except that the
literal `"eng_Latn"` maps to the fixed short code `"en"`; in particular
`"fra_Latn"`/`"notes"` gives `"notes_fr"` and `"eng_Latn"` gives
`"notes_en"`. -/
theorem c6_derived_column_name (colName target : String)
    (hu : hasUnderscore target = true)
    (hpre : pyTake (beforeUnderscore target) 2 = pyTake target 2) :
    (newColName colName "eng_Latn" = colName ++ "_en") ∧
    (target ≠ "eng_Latn" → newColName colName target = colName ++ "_" ++ pyTake target 2) ∧
    newColName "notes" "fra_Latn" = "notes_fr" ∧
    newColName "notes" "eng_Latn" = "notes_en" := by
  refine ⟨?_, ?_, by decide, by decide⟩
  · show colName ++ "_" ++ langSuffix "eng_Latn" = colName ++ "_en"
    rw [String.append_assoc]
    rfl
  · intro hne
    simp only [newColName, langSuffix, if_neg hne, hu, if_true, hpre]

/-- C6 witness: the naming theorem applied at the claim's concrete targets. -/
theorem c6_witness :
    newColName "notes" "fra_Latn" = "notes" ++ "_" ++ pyTake "fra_Latn" 2 ∧
    newColName "notes" "eng_Latn" = "notes" ++ "_en" :=
  ⟨(c6_derived_column_name "notes" "fra_Latn" (by decide) (by decide)).2.1 (by decide),
   (c6_derived_column_name "notes" "fra_Latn" (by decide) (by decide)).1⟩

/-! ## Claim C4 -/

/-- C4 counterexample: a column detected as Russian (stored Argos code
`"ru"`) whose user override is French.  The engine is invoked with source
code `"ru"`, while the resolution claimed by C4 — registry conversion of the
effective (override) language — yields `"fr"`: the stored `argos_code` takes
precedence over the override's conversion. -/
theorem c4_counterexample :
    Event.call ["bonjour"] ["ru"] ∈
      (CSVProcessor.translate echoEngine (fun _ => false) true toArgosFixture 2 "eng_Latn"
        1 [(colRusOverrideFra, ["bonjour"])] []).state.trace ∧
    claimedArgosSourceLang toArgosFixture colRusOverrideFra = "fr" ∧
    ("ru" : String) ≠ "fr" := by decide

/-- C4 (amended): in every Argos-engine run, every batch invocation belongs
to one selected column: its texts are a batch slice of that column's own
unit list, and its per-unit source codes are the resolution chain of
processor.py lines 439-442 applied to that same column — the column's
analysis-time `argos_code` when non-empty, else the registry conversion of
the column's effective language, else that language's 2-letter prefix —
replicated once per unit of the batch. -/
theorem c4_argos_source_lang (engine : Engine) (cancelled : Nat → Bool)
    (toArgos : String → Option String) (b : Nat) (target_language : String)
    (nRows : Nat) (selected : List (ColumnInfo × List String))
    (init : List (String × List String)) (hsel : selected ≠ [])
    (texts langs : List String)
    (hcall : Event.call texts langs ∈
      (CSVProcessor.translate engine cancelled true toArgos b target_language nRows
        selected init).state.trace) :
    ∃ cv, cv ∈ selected ∧
      (∃ ch, ch ∈ batchSlices b (columnUnits cv.2) ∧ texts = ch.map Prod.snd) ∧
      langs = List.replicate texts.length (argosSourceLang toArgos cv.1) := by
  rw [translate_state engine cancelled true toArgos b target_language nRows selected init
    hsel] at hcall
  rcases runColumns_mem_call engine cancelled true toArgos b _ selected (initState init)
      texts langs hcall with h | ⟨cv, hcv, ch, hch, htexts, hlangs⟩
  · cases h
  · refine ⟨cv, hcv, ⟨ch, hch, htexts⟩, ?_⟩
    rw [hlangs, htexts]
    simp [columnSourceLang]

/-- C4 witness: the amended theorem applied at a concrete Argos run. -/
theorem c4_witness :
    ∃ cv, cv ∈ [(colRusOverrideFra, ["bonjour"])] ∧
      (∃ ch, ch ∈ batchSlices 2 (columnUnits cv.2) ∧
        ["bonjour"] = ch.map Prod.snd) ∧
      ["ru"] = List.replicate (["bonjour"].length)
        (argosSourceLang toArgosFixture cv.1) :=
  c4_argos_source_lang echoEngine (fun _ => false) toArgosFixture 2 "eng_Latn" 1
    [(colRusOverrideFra, ["bonjour"])] [] (List.cons_ne_nil _ _) ["bonjour"] ["ru"]
    (by decide)

/-! ## Claim C9 -/

theorem filter_length_add_countP_not (p : String → Bool) :
    ∀ (l : List String), (l.filter p).length + l.countP (fun v => !(p v)) = l.length := by
  intro l
  induction l with
  | nil => rfl
  | cons v vs ih =>
    rw [List.filter_cons, List.countP_cons]
    cases hv : p v with
    | true =>
      simp only [Bool.not_true, Bool.false_eq_true, if_false, eq_self_iff_true, if_true,
        List.length_cons, Nat.add_zero]
      omega
    | false =>
      simp only [Bool.not_false, Bool.false_eq_true, if_false, eq_self_iff_true, if_true,
        List.length_cons]
      omega

theorem totalCells_add_excluded (selected : List (ColumnInfo × List String)) :
    totalCells selected +
      (selected.map (fun cv => cv.2.countP (fun v => !(isTranslatable v)))).sum =
      (selected.map (fun cv => cv.2.length)).sum := by
  induction selected with
  | nil => rfl
  | cons cv rest ih =>
    simp only [totalCells, List.map_cons, List.sum_cons] at ih ⊢
    have := filter_length_add_countP_not (fun v => isTranslatable v) cv.2
    omega

/-- C9: a cell whose string form is exactly the literal `"nan"` — even if it
is genuine data — is treated as a placeholder: it fails the cell filter, it
is never among the texts of any engine invocation, it is not part of the
total-cell count reported to the progress tracker (that count plus the number
of filtered-out cells is the total number of cells), and the committed output
column holds the empty string (not the original text) at its row index. -/
theorem c9_nan_placeholder (engine : Engine) (cancelled : Nat → Bool) (isArgos : Bool)
    (toArgos : String → Option String) (b : Nat) (target_language : String)
    (nRows : Nat) (selected : List (ColumnInfo × List String)) (col : ColumnInfo)
    (values : List String) (i : Nat) (hb : 0 < b) (hsel : selected ≠ [])
    (hmem : (col, values) ∈ selected)
    (hnodup : (selected.map (fun cv => cv.1.name)).Nodup)
    (hnan : values.get? i = some "nan") :
    isTranslatable "nan" = false ∧
    (∀ texts langs,
      Event.call texts langs ∈
        (CSVProcessor.translate engine cancelled isArgos toArgos b target_language nRows
          selected []).state.trace →
      "nan" ∉ texts) ∧
    (CSVProcessor.translate engine cancelled isArgos toArgos b target_language nRows
        selected []).total_cells +
      (selected.map (fun cv => cv.2.countP (fun v => !(isTranslatable v)))).sum =
      (selected.map (fun cv => cv.2.length)).sum ∧
    (∀ out,
      (col.name, out) ∈
        (CSVProcessor.translate engine cancelled isArgos toArgos b target_language nRows
          selected []).state.translated_columns →
      out.get? i = some "") := by
  refine ⟨by decide, ?_, ?_, ?_⟩
  · intro texts langs hcall hninn
    rw [translate_state engine cancelled isArgos toArgos b target_language nRows selected
      [] hsel] at hcall
    have := call_texts_translatable engine cancelled isArgos toArgos b hb _ selected
      (initState []) texts langs hcall (fun ts ls hts => by cases hts) "nan" hninn
    cases this
  · rw [translate_total_cells engine cancelled isArgos toArgos b target_language nRows
      selected [] hsel]
    exact totalCells_add_excluded selected
  · intro out hout
    rw [translate_state engine cancelled isArgos toArgos b target_language nRows selected
      [] hsel] at hout
    rcases runColumns_mem_translated engine cancelled isArgos toArgos b hb _ selected
        (initState []) (col.name, out) hout with h | ⟨cv, hcv, hname, _, huntouched⟩
    · cases h
    · have hceq : (col, values) = cv :=
        List.inj_on_of_nodup_map hnodup hmem hcv hname
      rw [← hceq] at huntouched
      exact huntouched i "nan" hnan (by decide)

/-! ## Claim C5 -/

/-- C5: absent cancellation, the engine-invocation texts of a run are exactly
the consecutive fixed-size slices of each selected column's non-empty unit
texts, per column in source order — one invocation per slice; slices
concatenate back to the unit list, are non-empty, never exceed the batch
size, and all but the last have exactly the batch size; with batch size 2
over 5 units there are exactly 3 invocations of sizes 2, 2, 1, in order. -/
theorem c5_batch_partition (engine : Engine) (cancelled : Nat → Bool) (isArgos : Bool)
    (toArgos : String → Option String) (b : Nat) (target_language : String)
    (nRows : Nat) (selected : List (ColumnInfo × List String))
    (init : List (String × List String)) (hb : 0 < b) (hsel : selected ≠ [])
    (hnc : ∀ k, cancelled k = false) :
    callTexts (CSVProcessor.translate engine cancelled isArgos toArgos b target_language
        nRows selected init).state.trace =
      (selected.map (fun cv =>
        batchSlices b (cv.2.filter (fun v => isTranslatable v)))).flatten ∧
    (∀ cv ∈ selected,
      (batchSlices b (cv.2.filter (fun v => isTranslatable v))).flatten =
        cv.2.filter (fun v => isTranslatable v)) ∧
    (∀ cv ∈ selected, ∀ ch ∈ batchSlices b (cv.2.filter (fun v => isTranslatable v)),
      ch ≠ [] ∧ ch.length ≤ b) ∧
    (∀ cv ∈ selected, ∀ j ch,
      (batchSlices b (cv.2.filter (fun v => isTranslatable v))).get? j = some ch →
      j + 1 < (batchSlices b (cv.2.filter (fun v => isTranslatable v))).length →
      ch.length = b) ∧
    (callTexts (CSVProcessor.translate echoEngine (fun _ => false) false (fun _ => none)
        2 "eng_Latn" 5 [(colRus, ["v1", "v2", "v3", "v4", "v5"])] []).state.trace).map
      List.length = [2, 2, 1] := by
  refine ⟨?_, ?_, ?_, ?_, by decide⟩
  · rw [translate_state engine cancelled isArgos toArgos b target_language nRows selected
      init hsel, runColumns_no_cancel engine cancelled hnc isArgos toArgos b _ selected
      (initState init)]
    show callTexts ((initState init).trace ++ runTrace isArgos toArgos b selected) = _
    rw [callTexts_append, callTexts_runTrace]
    rfl
  · intro cv _
    exact batchSlices_flatten b hb _
  · intro cv _ ch hch
    obtain ⟨h1, h2, _⟩ := mem_batchSlices b hb _ ch hch
    exact ⟨h1, h2⟩
  · intro cv _ j ch hch hlt
    exact batchSlices_get?_length b hb _ j ch hch hlt

/-- C5 witness: the partition theorem applied at the concrete 5-unit run. -/
theorem c5_witness :
    callTexts (CSVProcessor.translate echoEngine (fun _ => false) false (fun _ => none)
        2 "eng_Latn" 5 [(colRus, ["v1", "v2", "v3", "v4", "v5"])] []).state.trace =
      ([(colRus, ["v1", "v2", "v3", "v4", "v5"])].map (fun cv =>
        batchSlices 2 (cv.2.filter (fun v => isTranslatable v)))).flatten :=
  (c5_batch_partition echoEngine (fun _ => false) false (fun _ => none) 2 "eng_Latn" 5
    [(colRus, ["v1", "v2", "v3", "v4", "v5"])] [] (by decide) (List.cons_ne_nil _ _)
    (fun _ => rfl)).1

/-! ## Claim C3 -/

/-- C3: with a monotone cancellation flag (the ProgressTracker's `cancel()`
only sets it), every engine invocation in a run's trace is immediately
preceded by a cancellation check that observed the flag clear — the flag is
read before each column and before each batch — no engine invocation occurs
anywhere after a check that observed the flag set, and every column committed
during the run (also before the cancellation) is retained in the stored
translated columns, not discarded. -/
theorem c3_cancellation (engine : Engine) (cancelled : Nat → Bool) (isArgos : Bool)
    (toArgos : String → Option String) (b : Nat) (target_language : String)
    (nRows : Nat) (selected : List (ColumnInfo × List String))
    (init : List (String × List String)) (hsel : selected ≠ [])
    (mon : CancelMonotone cancelled) :
    callsPreceded (CSVProcessor.translate engine cancelled isArgos toArgos b
        target_language nRows selected init).state.trace = true ∧
    noCallAfterTrueCheck (CSVProcessor.translate engine cancelled isArgos toArgos b
        target_language nRows selected init).state.trace = true ∧
    (∀ n, Event.commit n ∈ (CSVProcessor.translate engine cancelled isArgos toArgos b
        target_language nRows selected init).state.trace →
      ∃ vs, (n, vs) ∈ (CSVProcessor.translate engine cancelled isArgos toArgos b
        target_language nRows selected init).state.translated_columns) := by
  rw [translate_state engine cancelled isArgos toArgos b target_language nRows selected
    init hsel]
  have hsafe := runColumns_safe engine cancelled mon isArgos toArgos b
    (engineTargetLang isArgos toArgos target_language) selected (initState init)
    ⟨rfl, rfl, fun h => by cases h⟩
  refine ⟨hsafe.2.1, hsafe.1, ?_⟩
  exact runColumns_commits engine cancelled isArgos toArgos b _ selected (initState init)
    (fun n h => by cases h)

/-- C3 witness: the cancellation theorem applied at a run whose flag becomes
set starting from the third read, so the second batch of the column is never
sent. -/
theorem c3_witness :
    callsPreceded (CSVProcessor.translate echoEngine (fun k => decide (2 ≤ k)) false
        (fun _ => none) 1 "eng_Latn" 2 [(colRus, ["aa", "bb"])] []).state.trace = true ∧
    noCallAfterTrueCheck (CSVProcessor.translate echoEngine (fun k => decide (2 ≤ k))
        false (fun _ => none) 1 "eng_Latn" 2 [(colRus, ["aa", "bb"])] []).state.trace =
      true :=
  ⟨(c3_cancellation echoEngine (fun k => decide (2 ≤ k)) false (fun _ => none) 1
      "eng_Latn" 2 [(colRus, ["aa", "bb"])] [] (List.cons_ne_nil _ _)
      (fun i j hij hi => by
        simp only [decide_eq_true_eq] at hi ⊢
        omega)).1,
   (c3_cancellation echoEngine (fun k => decide (2 ≤ k)) false (fun _ => none) 1
      "eng_Latn" 2 [(colRus, ["aa", "bb"])] [] (List.cons_ne_nil _ _)
      (fun i j hij hi => by
        simp only [decide_eq_true_eq] at hi ⊢
        omega)).2.1⟩

/-! ## Claim C1 -/

theorem unitOk_components {r : TranslationResult} (h : unitOk r = true) :
    r.success = true ∧ r.translated_text ≠ "" := by
  simpa [unitOk] using h

/-- C1 counterexample: a run cancelled between the two batches of a column.
The stored output array still has the column's length, but the position of
the never-processed unit `"bb"` — a cell that is neither empty, nor
whitespace-only, nor the null marker — holds the blank string, which is
neither the engine's translated text nor the original source text. -/
theorem c1_counterexample :
    (CSVProcessor.translate echoEngine (fun k => decide (2 ≤ k)) false (fun _ => none) 1
        "eng_Latn" 2 [(colRus, ["aa", "bb"])] []).state.translated_columns =
      [("notes", ["T:aa", ""])] ∧
    ["aa", "bb"].get? 1 = some "bb" ∧
    isTranslatable "bb" = true ∧
    ["T:aa", ""].get? 1 = some "" ∧
    ("" : String) ≠ "bb" := by decide

/-- C1 (amended): provided the engine honours its alignment contract and no
cancellation is observed during the run, the stored output array of every
selected column of length N has length exactly N; every position whose source
cell fails the cell filter (empty, whitespace-only, or the null marker) holds
the empty string, and every other position holds a non-blank string that is
either the original source text or a successful engine outcome's translated
text.  (Under cancellation the source stores partially-filled arrays in which
unprocessed non-empty cells remain blank — see the counterexample.) -/
theorem c1_dense_output (engine : Engine) (cancelled : Nat → Bool) (isArgos : Bool)
    (toArgos : String → Option String) (b : Nat) (target_language : String)
    (nRows : Nat) (selected : List (ColumnInfo × List String)) (col : ColumnInfo)
    (values : List String) (init : List (String × List String))
    (hal : Aligned engine) (hb : 0 < b) (hsel : selected ≠ [])
    (hnc : ∀ k, cancelled k = false) (hmem : (col, values) ∈ selected) :
    ∃ out,
      (col.name, out) ∈ (CSVProcessor.translate engine cancelled isArgos toArgos b
        target_language nRows selected init).state.translated_columns ∧
      out.length = values.length ∧
      ∀ i v, values.get? i = some v →
        (isTranslatable v = false → out.get? i = some "") ∧
        (isTranslatable v = true →
          ∃ w, out.get? i = some w ∧ w ≠ "" ∧
            (w = v ∨
              ∃ r, r ∈ columnOutcomes engine
                  (engineTargetLang isArgos toArgos target_language)
                  (columnSourceLang isArgos toArgos col) b values ∧
                r.success = true ∧ r.translated_text = w)) := by
  rw [translate_state engine cancelled isArgos toArgos b target_language nRows selected
    init hsel, runColumns_no_cancel engine cancelled hnc isArgos toArgos b _ selected
    (initState init)]
  refine ⟨columnOutput engine (engineTargetLang isArgos toArgos target_language)
    (columnSourceLang isArgos toArgos col) b values, ?_, ?_, ?_⟩
  · exact List.mem_append.mpr (Or.inr (List.mem_map.mpr ⟨(col, values), hmem, rfl⟩))
  · exact columnOutput_length engine _ _ b values
  · intro i v hv
    constructor
    · intro hnt
      exact columnOutput_get_not_translatable engine _ _ b hb values i v hv hnt
    · intro ht
      have humem : (i, v) ∈ columnUnits values := columnUnits_mem_of hv ht
      obtain ⟨p, hp⟩ := List.mem_iff_get?.mp humem
      have hplt : p < (columnUnits values).length := by
        obtain ⟨h, _⟩ := List.get?_eq_some.mp hp
        exact h
      have hplt2 : p < (columnOutcomes engine
          (engineTargetLang isArgos toArgos target_language)
          (columnSourceLang isArgos toArgos col) b values).length := by
        rw [columnOutcomes_length engine hal _ _ b hb values]
        exact hplt
      have hr : (columnOutcomes engine (engineTargetLang isArgos toArgos target_language)
          (columnSourceLang isArgos toArgos col) b values).get? p =
          some ((columnOutcomes engine (engineTargetLang isArgos toArgos target_language)
            (columnSourceLang isArgos toArgos col) b values).get ⟨p, hplt2⟩) :=
        List.get?_eq_get hplt2
      have hout := columnOutput_get_unit engine hal _ _ b hb values p i v _ hp hr
      by_cases hok : unitOk ((columnOutcomes engine
          (engineTargetLang isArgos toArgos target_language)
          (columnSourceLang isArgos toArgos col) b values).get ⟨p, hplt2⟩) = true
      · rw [if_pos hok] at hout
        obtain ⟨hsucc, hne⟩ := unitOk_components hok
        exact ⟨_, hout, hne, Or.inr ⟨_, List.get?_mem hr, hsucc, rfl⟩⟩
      · rw [if_neg hok] at hout
        exact ⟨v, hout, isTranslatable_ne_empty ht, Or.inl rfl⟩

/-- C1 witness: the amended theorem applied at a concrete, uncancelled run. -/
theorem c1_witness :
    ∃ out,
      ("notes", out) ∈ (CSVProcessor.translate echoEngine (fun _ => false) false
        (fun _ => none) 2 "eng_Latn" 5
        [(colRus, ["a", "", "b", "nan", "c"])] []).state.translated_columns ∧
      out.length = (["a", "", "b", "nan", "c"] : List String).length ∧
      ∀ i v, (["a", "", "b", "nan", "c"] : List String).get? i = some v →
        (isTranslatable v = false → out.get? i = some "") ∧
        (isTranslatable v = true →
          ∃ w, out.get? i = some w ∧ w ≠ "" ∧
            (w = v ∨
              ∃ r, r ∈ columnOutcomes echoEngine
                  (engineTargetLang false (fun _ => none) "eng_Latn")
                  (columnSourceLang false (fun _ => none) colRus) 2
                  ["a", "", "b", "nan", "c"] ∧
                r.success = true ∧ r.translated_text = w)) :=
  c1_dense_output echoEngine (fun _ => false) false (fun _ => none) 2 "eng_Latn" 5
    [(colRus, ["a", "", "b", "nan", "c"])] colRus ["a", "", "b", "nan", "c"] []
    (fun texts langs target => by simp [echoEngine]) (by decide)
    (List.cons_ne_nil _ _) (fun _ => rfl) (List.mem_singleton.mpr rfl)

/-! ## Claim C2 -/

/-- C2: absent cancellation, for every translation unit whose aligned outcome
reports failure (and carries an error description, as the engine contract
requires of failures), the committed output at that unit's original row index
is the original source text verbatim — never blank — the warning naming that
row and column is recorded in the run's warning list, and the unit is not part
of `cells_translated`, which counts exactly the counted successes; in
particular, for 3 units where only the unit at (1-based) row 1 fails, the
run's warnings are exactly the single entry referencing row 1 and
`cells_translated` is 2, not 3. -/
theorem c2_failure_handling (engine : Engine) (cancelled : Nat → Bool) (isArgos : Bool)
    (toArgos : String → Option String) (b : Nat) (target_language : String)
    (nRows : Nat) (selected : List (ColumnInfo × List String)) (col : ColumnInfo)
    (values : List String) (init : List (String × List String)) (p i : Nat) (t : String)
    (r : TranslationResult) (hal : Aligned engine) (hb : 0 < b) (hsel : selected ≠ [])
    (hnc : ∀ k, cancelled k = false) (hmem : (col, values) ∈ selected)
    (hu : (columnUnits values).get? p = some (i, t))
    (hr : (columnOutcomes engine (engineTargetLang isArgos toArgos target_language)
      (columnSourceLang isArgos toArgos col) b values).get? p = some r)
    (hfail : r.success = false) (herr : r.error ≠ "") :
    (∃ out,
      (col.name, out) ∈ (CSVProcessor.translate engine cancelled isArgos toArgos b
        target_language nRows selected init).state.translated_columns ∧
      out.get? i = some t ∧ t ≠ "") ∧
    mkWarning i col.name r.error ∈
      (CSVProcessor.translate engine cancelled isArgos toArgos b target_language nRows
        selected init).state.warnings ∧
    (CSVProcessor.translate engine cancelled isArgos toArgos b target_language nRows
        selected init).state.cells_translated =
      runCells engine isArgos toArgos b
        (engineTargetLang isArgos toArgos target_language) selected ∧
    unitOk r = false ∧
    (CSVProcessor.translate failAEngine (fun _ => false) false (fun _ => none) 3
        "eng_Latn" 3 [(colRus, ["a", "b", "c"])] []).state.warnings =
      [mkWarning 0 "notes" "boom"] ∧
    (CSVProcessor.translate failAEngine (fun _ => false) false (fun _ => none) 3
        "eng_Latn" 3 [(colRus, ["a", "b", "c"])] []).result.cells_translated = 2 := by
  have hok : unitOk r = false := unitOk_false_of_failure hfail
  have htr : isTranslatable t = true := (columnUnits_mem (List.get?_mem hu)).2
  rw [translate_state engine cancelled isArgos toArgos b target_language nRows selected
    init hsel, runColumns_no_cancel engine cancelled hnc isArgos toArgos b _ selected
    (initState init)]
  refine ⟨⟨columnOutput engine (engineTargetLang isArgos toArgos target_language)
      (columnSourceLang isArgos toArgos col) b values, ?_, ?_, ?_⟩, ?_, ?_, hok,
    by decide, by decide⟩
  · exact List.mem_append.mpr (Or.inr (List.mem_map.mpr ⟨(col, values), hmem, rfl⟩))
  · have hout := columnOutput_get_unit engine hal _ _ b hb values p i t r hu hr
    rw [if_neg (by rw [hok]; exact Bool.false_ne_true)] at hout
    exact hout
  · exact isTranslatable_ne_empty htr
  · show mkWarning i col.name r.error ∈
      (initState init).warnings ++ runWarningsList engine isArgos toArgos b _ selected
    refine List.mem_append.mpr (Or.inr ?_)
    refine List.mem_flatten.mpr ⟨colWarnings engine
      (engineTargetLang isArgos toArgos target_language)
      (columnSourceLang isArgos toArgos col) b values col.name, ?_, ?_⟩
    · exact List.mem_map.mpr ⟨(col, values), hmem, rfl⟩
    · unfold colWarnings
      refine List.mem_filterMap.mpr ⟨((i, t), r), ?_, ?_⟩
      · rw [columnPairs_eq_zip engine hal _ _ b hb values]
        apply List.get?_mem (n := p)
        rw [List.get?_eq_getElem?] at hu hr ⊢
        rw [List.getElem?_zip_eq_some]
        exact ⟨hu, hr⟩
      · simp [warnOf, hok, herr]
  · show (initState init).cells_translated + runCells engine isArgos toArgos b _ selected = _
    exact Nat.zero_add _

/-- C2 witness: the failure theorem applied at the concrete 3-unit run whose
first unit fails. -/
theorem c2_witness :
    (∃ out,
      ("notes", out) ∈ (CSVProcessor.translate failAEngine (fun _ => false) false
        (fun _ => none) 3 "eng_Latn" 3 [(colRus, ["a", "b", "c"])] []).state.translated_columns ∧
      out.get? 0 = some "a" ∧ ("a" : String) ≠ "") ∧
    mkWarning 0 "notes" "boom" ∈
      (CSVProcessor.translate failAEngine (fun _ => false) false (fun _ => none) 3
        "eng_Latn" 3 [(colRus, ["a", "b", "c"])] []).state.warnings :=
  have h := c2_failure_handling failAEngine (fun _ => false) false (fun _ => none) 3
    "eng_Latn" 3 [(colRus, ["a", "b", "c"])] colRus ["a", "b", "c"] [] 0 0 "a"
    { success := false, translated_text := "", error := "boom" }
    (fun texts langs target => by simp [failAEngine]) (by decide)
    (List.cons_ne_nil _ _) (fun _ => rfl) (List.mem_singleton.mpr rfl)
    (by decide) (by decide) rfl (by decide)
  ⟨h.1, h.2.1⟩

/-! ## Claim C10 -/

/-- C10: absent cancellation, a unit whose aligned outcome reports success
but carries an empty translated text is treated like a failure at the output
level: the original source text is written at its row index and it is not a
counted success, so it does not contribute to `cells_translated` (which
counts exactly the counted successes); the run's warnings are exactly those
produced by uncounted outcomes carrying a non-empty error description, so
such a unit records a warning iff its outcome also carries one. -/
theorem c10_empty_success (engine : Engine) (cancelled : Nat → Bool) (isArgos : Bool)
    (toArgos : String → Option String) (b : Nat) (target_language : String)
    (nRows : Nat) (selected : List (ColumnInfo × List String)) (col : ColumnInfo)
    (values : List String) (init : List (String × List String)) (p i : Nat) (t : String)
    (r : TranslationResult) (hal : Aligned engine) (hb : 0 < b) (hsel : selected ≠ [])
    (hnc : ∀ k, cancelled k = false) (hmem : (col, values) ∈ selected)
    (hu : (columnUnits values).get? p = some (i, t))
    (hr : (columnOutcomes engine (engineTargetLang isArgos toArgos target_language)
      (columnSourceLang isArgos toArgos col) b values).get? p = some r)
    (hsucc : r.success = true) (hempty : r.translated_text = "") :
    (∃ out,
      (col.name, out) ∈ (CSVProcessor.translate engine cancelled isArgos toArgos b
        target_language nRows selected init).state.translated_columns ∧
      out.get? i = some t) ∧
    unitOk r = false ∧
    (CSVProcessor.translate engine cancelled isArgos toArgos b target_language nRows
        selected init).state.cells_translated =
      runCells engine isArgos toArgos b
        (engineTargetLang isArgos toArgos target_language) selected ∧
    (CSVProcessor.translate engine cancelled isArgos toArgos b target_language nRows
        selected init).state.warnings =
      runWarningsList engine isArgos toArgos b
        (engineTargetLang isArgos toArgos target_language) selected ∧
    (r.error = "" → warnOf col.name ((i, t), r) = none) ∧
    (r.error ≠ "" → warnOf col.name ((i, t), r) = some (mkWarning i col.name r.error)) := by
  have hok : unitOk r = false := unitOk_false_of_empty_text hempty
  rw [translate_state engine cancelled isArgos toArgos b target_language nRows selected
    init hsel, runColumns_no_cancel engine cancelled hnc isArgos toArgos b _ selected
    (initState init)]
  refine ⟨⟨columnOutput engine (engineTargetLang isArgos toArgos target_language)
      (columnSourceLang isArgos toArgos col) b values, ?_, ?_⟩, hok, ?_, ?_, ?_, ?_⟩
  · exact List.mem_append.mpr (Or.inr (List.mem_map.mpr ⟨(col, values), hmem, rfl⟩))
  · have hout := columnOutput_get_unit engine hal _ _ b hb values p i t r hu hr
    rw [if_neg (by rw [hok]; exact Bool.false_ne_true)] at hout
    exact hout
  · show (initState init).cells_translated + runCells engine isArgos toArgos b _ selected = _
    exact Nat.zero_add _
  · show (initState init).warnings ++ runWarningsList engine isArgos toArgos b _ selected = _
    exact List.nil_append _
  · intro herr
    simp [warnOf, hok, herr]
  · intro herr
    simp [warnOf, hok, herr]

/-- C10 witness: the theorem applied at a run whose only outcome is a
text-less success. -/
theorem c10_witness :
    (∃ out,
      ("notes", out) ∈ (CSVProcessor.translate emptySuccessEngine (fun _ => false) false
        (fun _ => none) 2 "eng_Latn" 1
        [(colRus, ["a"])] []).state.translated_columns ∧
      out.get? 0 = some "a") ∧
    (CSVProcessor.translate emptySuccessEngine (fun _ => false) false (fun _ => none) 2
        "eng_Latn" 1 [(colRus, ["a"])] []).state.warnings =
      runWarningsList emptySuccessEngine false (fun _ => none) 2
        (engineTargetLang false (fun _ => none) "eng_Latn") [(colRus, ["a"])] :=
  have h := c10_empty_success emptySuccessEngine (fun _ => false) false (fun _ => none) 2
    "eng_Latn" 1 [(colRus, ["a"])] colRus ["a"] [] 0 0 "a"
    { success := true, translated_text := "", error := "" }
    (fun texts langs target => by simp [emptySuccessEngine]) (by decide)
    (List.cons_ne_nil _ _) (fun _ => rfl) (List.mem_singleton.mpr rfl)
    (by decide) (by decide) rfl rfl
  ⟨h.1, h.2.2.2.1⟩

/-! ## Claim C8 -/

/-- C8 counterexample: two runs that accumulate 12 and 11 warnings — so 2
and 1 warnings overflow the cap of 10 — produce byte-identical result
objects.  The result retains the first 10 warnings but no count of how many
further warnings overflowed: that count is not recoverable from the result,
refuting the claim. -/
theorem c8_counterexample :
    (CSVProcessor.translate failErrEngine (fun _ => false) false (fun _ => none) 12
        "eng_Latn" 12 [(colRus, valuesTwelve)] []).state.warnings.length = 12 ∧
    (CSVProcessor.translate failErrButLastEngine (fun _ => false) false (fun _ => none)
        12 "eng_Latn" 12 [(colRus, valuesTwelve)] []).state.warnings.length = 11 ∧
    (CSVProcessor.translate failErrEngine (fun _ => false) false (fun _ => none) 12
        "eng_Latn" 12 [(colRus, valuesTwelve)] []).result =
      (CSVProcessor.translate failErrButLastEngine (fun _ => false) false (fun _ => none)
        12 "eng_Latn" 12 [(colRus, valuesTwelve)] []).result := by decide

/-- C8 (amended): the result object's warning list retains exactly the first
10 warnings in order of occurrence; further warnings are discarded and no
count of the overflow is recorded in the result.  In particular a run
accumulating 12 warnings returns exactly their first 10. -/
theorem c8_warning_cap (engine : Engine) (cancelled : Nat → Bool) (isArgos : Bool)
    (toArgos : String → Option String) (b : Nat) (target_language : String)
    (nRows : Nat) (selected : List (ColumnInfo × List String))
    (init : List (String × List String)) (hsel : selected ≠ []) :
    (CSVProcessor.translate engine cancelled isArgos toArgos b target_language nRows
        selected init).result.warnings =
      ((CSVProcessor.translate engine cancelled isArgos toArgos b target_language nRows
        selected init).state.warnings).take 10 ∧
    (CSVProcessor.translate engine cancelled isArgos toArgos b target_language nRows
        selected init).result.warnings.length ≤ 10 ∧
    ((CSVProcessor.translate engine cancelled isArgos toArgos b target_language nRows
        selected init).state.warnings.length ≤ 10 →
      (CSVProcessor.translate engine cancelled isArgos toArgos b target_language nRows
        selected init).result.warnings =
        (CSVProcessor.translate engine cancelled isArgos toArgos b target_language nRows
          selected init).state.warnings) ∧
    (CSVProcessor.translate failErrEngine (fun _ => false) false (fun _ => none) 12
        "eng_Latn" 12 [(colRus, valuesTwelve)] []).result.warnings =
      ((CSVProcessor.translate failErrEngine (fun _ => false) false (fun _ => none) 12
        "eng_Latn" 12 [(colRus, valuesTwelve)] []).state.warnings).take 10 := by
  have hres := translate_result engine cancelled isArgos toArgos b target_language nRows
    selected init hsel
  have hst := translate_state engine cancelled isArgos toArgos b target_language nRows
    selected init hsel
  refine ⟨?_, ?_, ?_, by decide⟩
  · rw [hres, hst]
  · rw [hres]
    exact List.length_take_le _ _
  · intro hlen
    rw [hres, hst]
    rw [hst] at hlen
    exact List.take_of_length_le hlen

/-- C8 witness: the cap theorem applied at a run with a single warning, where
the implication's hypothesis (at most 10 warnings) holds. -/
theorem c8_witness :
    (CSVProcessor.translate failAEngine (fun _ => false) false (fun _ => none) 3
        "eng_Latn" 3 [(colRus, ["a", "b", "c"])] []).result.warnings =
      (CSVProcessor.translate failAEngine (fun _ => false) false (fun _ => none) 3
        "eng_Latn" 3 [(colRus, ["a", "b", "c"])] []).state.warnings :=
  (c8_warning_cap failAEngine (fun _ => false) false (fun _ => none) 3 "eng_Latn" 3
    [(colRus, ["a", "b", "c"])] [] (List.cons_ne_nil _ _)).2.2.1 (by decide)

/-- C9 witness: the placeholder theorem applied at a concrete run whose
middle cell is the literal `"nan"`. -/
theorem c9_witness :
    isTranslatable "nan" = false ∧
    (∀ texts langs,
      Event.call texts langs ∈
        (CSVProcessor.translate echoEngine (fun _ => false) false (fun _ => none) 2
          "eng_Latn" 3 [(colRus, ["a", "nan", "b"])] []).state.trace →
      "nan" ∉ texts) ∧
    (CSVProcessor.translate echoEngine (fun _ => false) false (fun _ => none) 2
        "eng_Latn" 3 [(colRus, ["a", "nan", "b"])] []).total_cells +
      ([(colRus, ["a", "nan", "b"])].map
        (fun cv => cv.2.countP (fun v => !(isTranslatable v)))).sum =
      ([(colRus, ["a", "nan", "b"])].map (fun cv => cv.2.length)).sum ∧
    (∀ out,
      ("notes", out) ∈
        (CSVProcessor.translate echoEngine (fun _ => false) false (fun _ => none) 2
          "eng_Latn" 3 [(colRus, ["a", "nan", "b"])] []).state.translated_columns →
      out.get? 1 = some "") :=
  c9_nan_placeholder echoEngine (fun _ => false) false (fun _ => none) 2 "eng_Latn" 3
    [(colRus, ["a", "nan", "b"])] colRus ["a", "nan", "b"] 1 (by decide)
    (List.cons_ne_nil _ _) (List.mem_singleton.mpr rfl) (by decide) (by decide)
